import Mathlib

/-!
Verification of the endpoint-resolution engine of `post-api-sync`.

The JavaScript source is shallowly embedded: pure string helpers from
`src/utils.js` become Lean functions on `List Char` wrapped into `String`,
the schema resolvers (`src/extract/zod.js`, `src/extract/nestjs.js`) become
fuel-indexed functions (the fuel models the unbounded JS call stack: a
`none` result means the recursion exceeded the given stack budget), and the
router-graph resolver of `src/extract/hono.js` is embedded as a step
function on an explicit breadth-first-search state, iterated a given number
of steps (the JS `while` loop has no bound).  JavaScript `Map` and `Set`
objects are modelled as association lists with insertion-order semantics:
`Map.set` replaces an existing key in place and appends a fresh key,
`Set.add` appends only when the element is missing.
-/

namespace PostApiSync

/-! ## String utilities (`src/utils.js`) -/

/-- Whitespace test used by the embedding of JS `String.prototype.trim`:
the ECMAScript WhiteSpace set (TAB, VT, FF, SP, NBSP, ZWNBSP and the
Space_Separator code points) together with the LineTerminator set
(LF, CR, LS, PS). -/
def isWs (c : Char) : Bool :=
  c = ' ' || c = '\t' || c = '\n' || c = '\r'
  || c.val = 0x0b || c.val = 0x0c || c.val = 0xa0 || c.val = 0x1680
  || (0x2000 ≤ c.val && c.val ≤ 0x200a)
  || c.val = 0x2028 || c.val = 0x2029 || c.val = 0x202f || c.val = 0x205f
  || c.val = 0x3000 || c.val = 0xfeff

/-- JS `p.trim()`: drop leading and trailing whitespace. -/
def trimL (l : List Char) : List Char :=
  ((l.dropWhile isWs).reverse.dropWhile isWs).reverse

/-- JS `out.replace(/\/+/g, '/')`: collapse each run of slashes to one. -/
def collapseL : List Char → List Char
  | [] => []
  | [c] => [c]
  | a :: b :: rest =>
    if a = '/' ∧ b = '/' then collapseL (b :: rest)
    else a :: collapseL (b :: rest)

/-- The `if (!out.startsWith('/')) out = '/' + out` step of `normalizePath`. -/
def ensureLead (t : List Char) : List Char :=
  if t.head? = some '/' then t else '/' :: t

/-- The trailing-slash strip of `normalizePath`:
`if (out.length > 1 && out.endsWith('/')) out = out.slice(0, -1)`. -/
def stripTrail (c : List Char) : List Char :=
  if 1 < c.length ∧ c.getLast? = some '/' then c.dropLast else c

/-- Embedding of `normalizePath` (`src/utils.js` lines 5-12) on character
lists: empty input gives `/`; otherwise trim, ensure a leading slash,
collapse slash runs, and strip a single trailing slash unless the whole
string is `/`. -/
def normalizePathL (l : List Char) : List Char :=
  if l = [] then ['/']
  else stripTrail (collapseL (ensureLead (trimL l)))

/-- `normalizePath` on `String` (the exported `src/utils.js` function). -/
def normalizePath (s : String) : String :=
  ⟨normalizePathL s.data⟩

/-- Embedding of `joinPaths` (`src/utils.js` lines 14-20); the
`base || '/'` defaulting of falsy (empty) strings is made explicit. -/
def joinPaths (base child : String) : String :=
  let a := normalizePath (if base = "" then "/" else base)
  let b := normalizePath (if child = "" then "/" else child)
  if a = "/" then b
  else if b = "/" then a
  else normalizePath (a ++ "/" ++ b)

/-- JS `String.prototype.toUpperCase` restricted to ASCII, which covers
every method name the extractor produces. -/
def upperStr (s : String) : String :=
  ⟨s.data.map Char.toUpper⟩

/-- The `HTTP_METHODS` constant of `src/utils.js`. -/
def HTTP_METHODS : List String :=
  ["get", "post", "put", "patch", "delete", "options", "head"]

/-- Embedding of `toKey` (`src/utils.js` lines 39-41):
the template literal `METHOD.toUpperCase() + " " + normalizePath(path)`. -/
def toKey (method pathStr : String) : String :=
  upperStr method ++ " " ++ normalizePath pathStr

/-! ### Facts about `collapseL`, `trimL`, `normalizePathL` -/

/-- `true` iff no two adjacent characters are both `/`. -/
def noSlashRun : List Char → Bool
  | [] => true
  | [_] => true
  | a :: b :: rest => (!(a = '/' && b = '/')) && noSlashRun (b :: rest)

theorem collapseL_head : ∀ (a : Char) (l : List Char),
    (collapseL (a :: l)).head? = some a := by
  intro a l
  induction l generalizing a with
  | nil => rfl
  | cons b rest ih =>
    show (collapseL (a :: b :: rest)).head? = some a
    rw [collapseL]
    by_cases h : a = '/' ∧ b = '/'
    · rw [if_pos h, ih b, h.1, h.2]
    · rw [if_neg h]
      rfl

theorem noSlashRun_cons_of (a : Char) (l : List Char)
    (hl : noSlashRun l = true)
    (h : ∀ x, l.head? = some x → ¬(a = '/' ∧ x = '/')) :
    noSlashRun (a :: l) = true := by
  cases l with
  | nil => rfl
  | cons x xs =>
    have hx := h x rfl
    show ((!(a = '/' && x = '/')) && noSlashRun (x :: xs)) = true
    simp only [Bool.and_eq_true, Bool.not_eq_true']
    refine ⟨?_, hl⟩
    by_cases h1 : a = '/'
    · by_cases h2 : x = '/'
      · exact absurd ⟨h1, h2⟩ hx
      · simp [h2]
    · simp [h1]

theorem collapseL_noRun : ∀ l : List Char, noSlashRun (collapseL l) = true := by
  intro l
  induction l with
  | nil => rfl
  | cons a rest ih =>
    cases rest with
    | nil => rfl
    | cons b r2 =>
      rw [collapseL]
      by_cases h : a = '/' ∧ b = '/'
      · rw [if_pos h]; exact ih
      · rw [if_neg h]
        apply noSlashRun_cons_of a _ ih
        intro x hx
        rw [collapseL_head b r2] at hx
        injection hx with hx
        rw [hx] at h
        exact h

theorem collapseL_eq_self : ∀ l : List Char, noSlashRun l = true → collapseL l = l := by
  intro l
  induction l with
  | nil => intro _; rfl
  | cons a rest ih =>
    cases rest with
    | nil => intro _; rfl
    | cons b r2 =>
      intro h
      simp only [noSlashRun, Bool.and_eq_true, Bool.not_eq_true'] at h
      rw [collapseL]
      have hna : ¬ (a = '/' ∧ b = '/') := by
        intro ⟨h1, h2⟩
        rw [h1, h2] at h
        simp at h
      rw [if_neg hna, ih h.2]

theorem noSlashRun_dropLast : ∀ l : List Char, noSlashRun l = true →
    noSlashRun l.dropLast = true := by
  intro l
  induction l with
  | nil => intro _; rfl
  | cons a rest ih =>
    cases rest with
    | nil => intro _; rfl
    | cons b r2 =>
      intro h
      simp only [noSlashRun, Bool.and_eq_true, Bool.not_eq_true'] at h
      show noSlashRun (a :: (b :: r2).dropLast) = true
      cases r2 with
      | nil => rfl
      | cons c r3 =>
        have ht := ih h.2
        show noSlashRun (a :: b :: (c :: r3).dropLast) = true
        simp only [noSlashRun, Bool.and_eq_true, Bool.not_eq_true']
        refine ⟨by rw [h.1], ?_⟩
        exact ht

theorem dropLast_getLast_ne_slash : ∀ l : List Char, noSlashRun l = true →
    l.getLast? = some '/' → l.dropLast.getLast? ≠ some '/' := by
  intro l
  induction l with
  | nil => intro _ h; simp at h
  | cons a rest ih =>
    cases rest with
    | nil => intro _ _; simp
    | cons b r2 =>
      intro hrun hlast
      simp only [noSlashRun, Bool.and_eq_true, Bool.not_eq_true'] at hrun
      cases r2 with
      | nil =>
        have hb : b = '/' := by
          simpa using hlast
        intro hcontra
        have ha : a = '/' := by
          simpa using hcontra
        rw [ha, hb] at hrun
        simp at hrun
      | cons c r3 =>
        have hlast2 : (b :: c :: r3).getLast? = some '/' := by
          simpa [List.getLast?_cons_cons] using hlast
        have := ih hrun.2 hlast2
        intro hcontra
        apply this
        rw [show (a :: b :: c :: r3).dropLast = a :: b :: (c :: r3).dropLast from rfl,
          List.getLast?_cons_cons] at hcontra
        exact hcontra

theorem head?_dropLast (l : List Char) (h : 1 < l.length) :
    l.dropLast.head? = l.head? := by
  match l, h with
  | a :: b :: rest, _ => rfl

theorem trimL_eq_self (l : List Char)
    (h1 : ∀ c, l.head? = some c → isWs c = false)
    (h2 : ∀ c, l.getLast? = some c → isWs c = false) :
    trimL l = l := by
  unfold trimL
  have hd : l.dropWhile isWs = l := by
    cases l with
    | nil => rfl
    | cons a rest =>
      rw [List.dropWhile_cons]
      rw [h1 a rfl]
      simp
  rw [hd]
  have hr : l.reverse.dropWhile isWs = l.reverse := by
    cases hrev : l.reverse with
    | nil => rfl
    | cons a rest =>
      rw [List.dropWhile_cons]
      have : l.getLast? = some a := by
        rw [← List.head?_reverse, hrev]; rfl
      rw [h2 a this]
      simp
  rw [hr, List.reverse_reverse]

theorem ensureLead_head (t : List Char) : ∃ rest, ensureLead t = '/' :: rest := by
  unfold ensureLead
  by_cases h : t.head? = some '/'
  · rw [if_pos h]
    cases t with
    | nil => simp at h
    | cons a r =>
      refine ⟨r, ?_⟩
      injection h with h
      rw [h]
  · rw [if_neg h]; exact ⟨t, rfl⟩

theorem stripTrail_spec (c : List Char)
    (hhead : c.head? = some '/') (hrun : noSlashRun c = true) :
    (stripTrail c).head? = some '/' ∧
    noSlashRun (stripTrail c) = true ∧
    (stripTrail c = ['/'] ∨ (stripTrail c).getLast? ≠ some '/') := by
  unfold stripTrail
  by_cases hstrip : 1 < c.length ∧ c.getLast? = some '/'
  · rw [if_pos hstrip]
    refine ⟨?_, noSlashRun_dropLast c hrun, Or.inr ?_⟩
    · rw [head?_dropLast c hstrip.1]; exact hhead
    · exact dropLast_getLast_ne_slash c hrun hstrip.2
  · rw [if_neg hstrip]
    refine ⟨hhead, hrun, ?_⟩
    by_cases hlast : c.getLast? = some '/'
    · left
      have hlen : ¬ 1 < c.length := fun h => hstrip ⟨h, hlast⟩
      cases c with
      | nil => simp at hhead
      | cons a r =>
        cases r with
        | nil =>
          injection hhead with h
          rw [h]
        | cons b r2 => simp at hlen
    · right; exact hlast

/-- Structural description of every `normalizePathL` output: it starts with
a slash, contains no run of repeated slashes, and ends with a slash only
when it is exactly `/`. -/
theorem normalizePathL_spec (l : List Char) :
    (normalizePathL l).head? = some '/' ∧
    noSlashRun (normalizePathL l) = true ∧
    (normalizePathL l = ['/'] ∨ (normalizePathL l).getLast? ≠ some '/') := by
  unfold normalizePathL
  by_cases hnil : l = []
  · rw [if_pos hnil]
    exact ⟨rfl, rfl, Or.inl rfl⟩
  · rw [if_neg hnil]
    obtain ⟨rest, hrest⟩ := ensureLead_head (trimL l)
    have hchead : (collapseL (ensureLead (trimL l))).head? = some '/' := by
      rw [hrest]; exact collapseL_head '/' rest
    exact stripTrail_spec _ hchead (collapseL_noRun _)

theorem isWs_slash : isWs '/' = false := rfl

/-- Idempotence of `normalizePathL` on lists whose normal form does not end
in whitespace. -/
theorem normalizePathL_idem (l : List Char)
    (hws : ∀ c, (normalizePathL l).getLast? = some c → isWs c = false) :
    normalizePathL (normalizePathL l) = normalizePathL l := by
  obtain ⟨hhead, hrun, hlast⟩ := normalizePathL_spec l
  set x := normalizePathL l with hx
  have hxne : x ≠ [] := by
    intro h
    rw [h] at hhead
    simp at hhead
  unfold normalizePathL
  rw [if_neg hxne]
  have htrim : trimL x = x := by
    apply trimL_eq_self
    · intro cch hc
      rw [hhead] at hc
      injection hc with hc
      rw [← hc]; rfl
    · exact hws
  rw [htrim]
  unfold ensureLead
  rw [if_pos hhead]
  rw [collapseL_eq_self x hrun]
  unfold stripTrail
  have : ¬ (1 < x.length ∧ x.getLast? = some '/') := by
    rintro ⟨hlen, hsl⟩
    rcases hlast with heq | hne
    · rw [heq] at hlen
      simp at hlen
    · exact hne hsl
  rw [if_neg this]

theorem string_eq_iff_data {a b : String} : a = b ↔ a.data = b.data := by
  constructor
  · intro h; rw [h]
  · intro h
    cases a; cases b
    simp only at h
    rw [h]

theorem data_append (a b : String) : (a ++ b).data = a.data ++ b.data := rfl

/-- Splitting at the first space: appending `' ' :: _` after space-free
lists is injective in both components. -/
theorem append_space_inj : ∀ (a c b d : List Char), ' ' ∉ a → ' ' ∉ c →
    (a ++ ' ' :: b = c ++ ' ' :: d ↔ a = c ∧ b = d) := by
  intro a
  induction a with
  | nil =>
    intro c b d _ hc
    cases c with
    | nil => simp
    | cons x xs =>
      simp only [List.nil_append, List.cons_append, List.cons.injEq]
      constructor
      · rintro ⟨h1, _⟩
        exact absurd (h1 ▸ List.mem_cons_self x xs) hc
      · rintro ⟨h, _⟩
        exact absurd h (by simp)
  | cons x xs ih =>
    intro c b d ha hc
    cases c with
    | nil =>
      simp only [List.nil_append, List.cons_append, List.cons.injEq]
      constructor
      · rintro ⟨h1, _⟩
        exact absurd (h1 ▸ List.mem_cons_self x xs) ha
      · rintro ⟨h, _⟩
        exact absurd h (by simp)
    | cons y ys =>
      simp only [List.cons_append, List.cons.injEq]
      have ha' : ' ' ∉ xs := fun h => ha (List.mem_cons_of_mem x h)
      have hc' : ' ' ∉ ys := fun h => hc (List.mem_cons_of_mem y h)
      rw [ih ys b d ha' hc', and_assoc]

theorem toKey_data (m p : String) :
    (toKey m p).data = (upperStr m).data ++ ' ' :: (normalizePath p).data := by
  show ((upperStr m ++ " ") ++ normalizePath p).data = _
  rw [data_append, data_append]
  simp

theorem methods_nospace : ∀ m ∈ HTTP_METHODS, ' ' ∉ (upperStr m).data := by
  intro m hm
  fin_cases hm <;> decide

theorem methods_upper_inj : ∀ m₁ ∈ HTTP_METHODS, ∀ m₂ ∈ HTTP_METHODS,
    (upperStr m₁).data = (upperStr m₂).data → m₁ = m₂ := by
  intro m₁ h₁ m₂ h₂
  fin_cases h₁ <;> fin_cases h₂ <;> decide

/-! ## Claims C6 and C7 -/

/-- C6: for valid HTTP methods, `toKey` is deterministic and collision-free:
two keys agree exactly when the methods agree and the paths agree after
normalization. -/
theorem toKey_stable_collision_free :
    ∀ m₁ m₂ p₁ p₂ : String, m₁ ∈ HTTP_METHODS → m₂ ∈ HTTP_METHODS →
    (toKey m₁ p₁ = toKey m₂ p₂ ↔ (m₁ = m₂ ∧ normalizePath p₁ = normalizePath p₂)) := by
  intro m₁ m₂ p₁ p₂ h₁ h₂
  rw [string_eq_iff_data, toKey_data, toKey_data]
  rw [append_space_inj _ _ _ _ (methods_nospace m₁ h₁) (methods_nospace m₂ h₂)]
  constructor
  · rintro ⟨hm, hp⟩
    exact ⟨methods_upper_inj m₁ h₁ m₂ h₂ hm, string_eq_iff_data.mpr hp⟩
  · rintro ⟨hm, hp⟩
    exact ⟨by rw [hm], string_eq_iff_data.mp hp⟩

/-- Witness for C6 at a concrete input. -/
theorem toKey_stable_collision_free_witness :
    toKey "get" "/a//b/" = toKey "get" "/a/b" ∧ "get" ∈ HTTP_METHODS :=
  ⟨(toKey_stable_collision_free "get" "get" "/a//b/" "/a/b"
      (by decide) (by decide)).mpr ⟨rfl, by decide⟩,
   by decide⟩

/-- C7 (amended): `normalizePath` collapses every run of repeated slashes,
strips a trailing slash except when the result is exactly `/`, and is
idempotent on every input whose normalized form does not end in a
character that JS `trim` removes (the ECMAScript whitespace and
line-terminator set modeled by `isWs`). -/
theorem normalizePath_spec_idem :
    ∀ p : String,
    noSlashRun (normalizePath p).data = true ∧
    (normalizePath p = "/" ∨ (normalizePath p).data.getLast? ≠ some '/') ∧
    ((∀ c, (normalizePath p).data.getLast? = some c → isWs c = false) →
      normalizePath (normalizePath p) = normalizePath p) := by
  intro p
  obtain ⟨hh, hr, hl⟩ := normalizePathL_spec p.data
  refine ⟨hr, ?_, ?_⟩
  · rcases hl with h | h
    · left
      rw [string_eq_iff_data]
      exact h
    · right; exact h
  · intro hws
    rw [string_eq_iff_data]
    exact normalizePathL_idem p.data hws

/-- Witness for C7 at a concrete input. -/
theorem normalizePath_spec_idem_witness :
    noSlashRun (normalizePath "//x/y//").data = true ∧
    (normalizePath "//x/y//" = "/" ∨
      (normalizePath "//x/y//").data.getLast? ≠ some '/') ∧
    normalizePath (normalizePath "//x/y//") = normalizePath "//x/y//" := by
  obtain ⟨h1, h2, h3⟩ := normalizePath_spec_idem "//x/y//"
  exact ⟨h1, h2, h3 (by decide)⟩

/-- C7 counterexample: `normalizePath` is not idempotent as claimed; when
stripping the trailing slash exposes trailing whitespace, a second pass
trims it. -/
theorem normalizePath_not_idem :
    normalizePath (normalizePath "/a /") ≠ normalizePath "/a /" := by
  decide

/-! ## JS `Map` / `Set` model

Insertion-ordered association lists with the semantics of JS `Map`:
`set` replaces the value of an existing key in place and appends a fresh
key at the end; `values()` iterates in insertion order. -/

/-- JS `Map.get`. -/
def alookup {α : Type} : List (String × α) → String → Option α
  | [], _ => none
  | (k, v) :: rest, key => if k = key then some v else alookup rest key

/-- JS `Map.set`. -/
def aset {α : Type} : List (String × α) → String → α → List (String × α)
  | [], key, v => [(key, v)]
  | (k, w) :: rest, key, v =>
    if k = key then (k, v) :: rest else (k, w) :: aset rest key v

/-- JS `Map.has`. -/
def ahas {α : Type} (m : List (String × α)) (key : String) : Bool :=
  (alookup m key).isSome

/-- JS `Array.from(map.values())`. -/
def avalues {α : Type} (m : List (String × α)) : List α :=
  m.map Prod.snd

/-- JS `Array.from(map.keys())`. -/
def akeys {α : Type} (m : List (String × α)) : List String :=
  m.map Prod.fst

/-- Left-biased choice on `Option`, used to state `Map` override facts. -/
def optOr {α : Type} : Option α → Option α → Option α
  | some a, _ => some a
  | none, b => b

theorem alookup_aset {α : Type} (m : List (String × α)) (key k : String) (v : α) :
    alookup (aset m key v) k = if key = k then some v else alookup m k := by
  induction m with
  | nil => by_cases hk : key = k <;> simp [aset, alookup, hk]
  | cons p rest ih =>
    obtain ⟨k0, w⟩ := p
    by_cases h0 : k0 = key <;> by_cases hk : k0 = k <;> by_cases hkk : key = k <;>
      simp_all [aset, alookup]

theorem mem_aset {α : Type} (m : List (String × α)) (key : String) (v : α) :
    ∀ p ∈ aset m key v, p ∈ m ∨ p = (key, v) := by
  induction m with
  | nil =>
    intro p hp
    right
    simpa [aset] using hp
  | cons q rest ih =>
    obtain ⟨k0, w⟩ := q
    intro p hp
    show p ∈ (k0, w) :: rest ∨ _
    by_cases h0 : k0 = key
    · rw [show aset ((k0, w) :: rest) key v = (k0, v) :: rest from by
        simp [aset, h0]] at hp
      rcases List.mem_cons.mp hp with h | h
      · right; rw [h, h0]
      · left; exact List.mem_cons_of_mem _ h
    · rw [show aset ((k0, w) :: rest) key v = (k0, w) :: aset rest key v from by
        simp [aset, h0]] at hp
      rcases List.mem_cons.mp hp with h | h
      · left; rw [h]; exact List.mem_cons_self _ _
      · rcases ih p h with h1 | h1
        · left; exact List.mem_cons_of_mem _ h1
        · right; exact h1

theorem akeys_aset_nodup {α : Type} (m : List (String × α)) (key : String) (v : α) :
    (akeys m).Nodup → (akeys (aset m key v)).Nodup := by
  induction m with
  | nil =>
    intro _
    simp [akeys, aset]
  | cons q rest ih =>
    obtain ⟨k0, w⟩ := q
    intro h
    simp only [akeys, List.map_cons, List.nodup_cons] at h
    by_cases h0 : k0 = key
    · rw [show aset ((k0, w) :: rest) key v = (k0, v) :: rest from by
        simp [aset, h0]]
      simpa [akeys, List.nodup_cons] using h
    · rw [show aset ((k0, w) :: rest) key v = (k0, w) :: aset rest key v from by
        simp [aset, h0]]
      simp only [akeys, List.map_cons, List.nodup_cons]
      refine ⟨?_, ih h.2⟩
      intro hmem
      rcases List.mem_map.mp hmem with ⟨p, hp, hpk⟩
      rcases mem_aset rest key v p hp with h1 | h1
      · exact h.1 (hpk ▸ List.mem_map_of_mem Prod.fst h1)
      · rw [h1] at hpk
        exact h0 hpk.symm

/-! ## The auto-mode endpoint merge (claim C5) -/

/-- A final endpoint record as the merge step sees it: only the `key`
field is inspected by the `Map`, the remaining fields ride along. -/
structure KeyedEndpoint where
  key : String
  method : String
  path : String
  description : String
  deriving DecidableEq

/-- Embedding of the `auto` branch of `extractEndpoints`
(`src/extract/index.js` lines 128-133): both extractor outputs are poured
into one `Map` keyed by `e.key` (NestJS results first, Express second) and
the map's values are returned.  The two extractor calls themselves parse
files; the embedding takes their result lists as arguments. -/
def extractEndpointsAuto (nest exp : List KeyedEndpoint) : List KeyedEndpoint :=
  avalues ((nest ++ exp).foldl (fun m e => aset m e.key e) [])

theorem getLast?_cons_isSome {α : Type} (b : α) (t : List α) :
    ∃ x, (b :: t).getLast? = some x := by
  induction t generalizing b with
  | nil => exact ⟨b, rfl⟩
  | cons c t3 ih =>
    rcases ih c with ⟨x, hx⟩
    exact ⟨x, by rw [List.getLast?_cons_cons, hx]⟩

theorem getLast?_cons_eq {α : Type} (a : α) (t : List α) :
    (a :: t).getLast? = optOr t.getLast? (some a) := by
  cases t with
  | nil => rfl
  | cons b t2 =>
    rw [List.getLast?_cons_cons]
    rcases getLast?_cons_isSome b t2 with ⟨x, hx⟩
    rw [hx]
    rfl

theorem getLast?_append_right {α : Type} (s t : List α) (h : t ≠ []) :
    (s ++ t).getLast? = t.getLast? := by
  induction s with
  | nil => rfl
  | cons a s2 ih =>
    rw [List.cons_append, getLast?_cons_eq, ih]
    cases t with
    | nil => exact absurd rfl h
    | cons b t2 =>
      rcases getLast?_cons_isSome b t2 with ⟨x, hx⟩
      rw [hx]
      rfl

theorem foldl_aset_alookup (l : List KeyedEndpoint)
    (m : List (String × KeyedEndpoint)) (k : String) :
    alookup (l.foldl (fun m e => aset m e.key e) m) k =
      optOr ((l.filter (fun e => e.key == k)).getLast?) (alookup m k) := by
  induction l generalizing m with
  | nil => rfl
  | cons e l2 ih =>
    rw [List.foldl_cons, ih, List.filter_cons]
    by_cases hk : e.key = k
    · rw [if_pos (by simp [hk]), getLast?_cons_eq]
      rcases hF : (l2.filter (fun e => e.key == k)).getLast? with _ | x
      · rw [hF]
        show alookup (aset m e.key e) k = some e
        rw [alookup_aset, if_pos hk]
      · rw [hF]
        rfl
    · rw [if_neg (by simp [hk])]
      rcases hF : (l2.filter (fun e => e.key == k)).getLast? with _ | x
      · rw [hF]
        show alookup (aset m e.key e) k = alookup m k
        rw [alookup_aset, if_neg hk]
      · rw [hF]
        rfl

/-- Every entry inserted by the merge fold satisfies `value.key = map key`. -/
def Coherent (m : List (String × KeyedEndpoint)) : Prop :=
  ∀ p ∈ m, (p.2).key = p.1

theorem coherent_aset (m : List (String × KeyedEndpoint)) (e : KeyedEndpoint)
    (h : Coherent m) : Coherent (aset m e.key e) := by
  intro p hp
  rcases mem_aset m e.key e p hp with h1 | h1
  · exact h p h1
  · rw [h1]

theorem filter_avalues_not_mem (m : List (String × KeyedEndpoint)) (k : String)
    (hco : Coherent m) (hk : ¬ k ∈ akeys m) :
    (avalues m).filter (fun e => e.key == k) = [] := by
  induction m with
  | nil => rfl
  | cons p rest ih =>
    obtain ⟨k0, v0⟩ := p
    have h0 : v0.key = k0 := hco (k0, v0) (List.mem_cons_self _ _)
    have hk0 : ¬ k0 = k := fun h => hk (by simp [akeys, h])
    show ((v0 :: avalues rest).filter (fun e => e.key == k)) = []
    rw [List.filter_cons, if_neg (by simp [h0, hk0])]
    apply ih
    · intro p hp; exact hco p (List.mem_cons_of_mem _ hp)
    · intro h; exact hk (by simp [akeys] at h ⊢; right; exact h)

theorem filter_avalues_eq_lookup (m : List (String × KeyedEndpoint)) (k : String)
    (hnd : (akeys m).Nodup) (hco : Coherent m) :
    (avalues m).filter (fun e => e.key == k) = (alookup m k).toList := by
  induction m with
  | nil => rfl
  | cons p rest ih =>
    obtain ⟨k0, v0⟩ := p
    have h0 : v0.key = k0 := hco (k0, v0) (List.mem_cons_self _ _)
    simp only [akeys, List.map_cons, List.nodup_cons] at hnd
    have hco2 : Coherent rest := fun p hp => hco p (List.mem_cons_of_mem _ hp)
    show ((v0 :: avalues rest).filter (fun e => e.key == k)) =
      (if k0 = k then some v0 else alookup rest k).toList
    rw [List.filter_cons]
    by_cases hk0 : k0 = k
    · rw [if_pos (by simp [h0, hk0]), if_pos hk0]
      rw [filter_avalues_not_mem rest k hco2 (fun h => hnd.1 (hk0 ▸ h))]
      rfl
    · rw [if_neg (by simp [h0, hk0]), if_neg hk0]
      exact ih hnd.2 hco2

theorem foldl_aset_invariants (l : List KeyedEndpoint)
    (m : List (String × KeyedEndpoint))
    (hnd : (akeys m).Nodup) (hco : Coherent m) :
    (akeys (l.foldl (fun m e => aset m e.key e) m)).Nodup ∧
      Coherent (l.foldl (fun m e => aset m e.key e) m) := by
  induction l generalizing m with
  | nil => exact ⟨hnd, hco⟩
  | cons e l2 ih =>
    exact ih (aset m e.key e) (akeys_aset_nodup m e.key e hnd) (coherent_aset m e hco)

/-- C5: in the auto/combined mode, the merged output contains, for every
key, exactly the last record of `nest ++ exp` carrying that key; in
particular whenever the Express (later) extractor produced the key, its
record is the one that survives. -/
theorem extractEndpointsAuto_last_wins :
    ∀ (nest exp : List KeyedEndpoint) (k : String),
    (extractEndpointsAuto nest exp).filter (fun e => e.key == k) =
        ((nest ++ exp).filter (fun e => e.key == k)).getLast?.toList ∧
      (exp.filter (fun e => e.key == k) ≠ [] →
        (extractEndpointsAuto nest exp).filter (fun e => e.key == k) =
          (exp.filter (fun e => e.key == k)).getLast?.toList) := by
  intro nest exp k
  have hinv := foldl_aset_invariants (nest ++ exp) [] (by simp [akeys]) (by intro p hp; simp at hp)
  have hmain : (extractEndpointsAuto nest exp).filter (fun e => e.key == k) =
      ((nest ++ exp).filter (fun e => e.key == k)).getLast?.toList := by
    unfold extractEndpointsAuto
    rw [filter_avalues_eq_lookup _ k hinv.1 hinv.2, foldl_aset_alookup]
    rcases h : ((nest ++ exp).filter (fun e => e.key == k)).getLast? with _ | x
    · rw [h]; rfl
    · rw [h]; rfl
  refine ⟨hmain, fun hne => ?_⟩
  rw [hmain, List.filter_append, getLast?_append_right _ _ hne]

/-- Witness for C5: with one NestJS record and one Express record sharing a
key, the Express record wins. -/
theorem extractEndpointsAuto_last_wins_witness :
    (extractEndpointsAuto
        [KeyedEndpoint.mk "GET /users" "GET" "/users" "from nest"]
        [KeyedEndpoint.mk "GET /users" "GET" "/users" "from express"]).filter
      (fun e => e.key == "GET /users") =
      [KeyedEndpoint.mk "GET /users" "GET" "/users" "from express"] := by
  have h := (extractEndpointsAuto_last_wins
    [KeyedEndpoint.mk "GET /users" "GET" "/users" "from nest"]
    [KeyedEndpoint.mk "GET /users" "GET" "/users" "from express"]
    "GET /users").2 (by decide)
  rw [h]
  decide

/-! ## JavaScript expression AST fragment

The Babel node shapes the extractors inspect.  `callM` is a
`CallExpression` whose callee is a `MemberExpression` (with the property
name present only when the property is an `Identifier`); `callI` is a
`CallExpression` with an `Identifier` callee; `memberL` is a bare
`MemberExpression`.  Nodes of any other shape are `otherE`. -/

mutual
inductive JsExpr where
  | strL (v : String)
  | tmplL (quasis : List String)
  | numL (v : Int)
  | boolL (v : Bool)
  | identL (name : String)
  | objL (props : List JsProp)
  | memberL (obj : JsExpr) (propName : Option String)
  | callM (obj : JsExpr) (propName : Option String) (args : List JsExpr)
  | callI (calleeName : String) (args : List JsExpr)
  | otherE

/-- An `ObjectExpression` member: `ObjectProperty` or anything else
(spread elements etc., which every loop in the source skips). -/
inductive JsProp where
  | objProp (key : JsExpr) (value : JsExpr)
  | otherProp
end

/-- `getPropertyName` of `src/extract/zod.js` (also used for object keys in
`src/extract/nestjs.js`): `Identifier` name or `StringLiteral` value. -/
def getPropertyNameJ : JsExpr → Option String
  | .identL name => some name
  | .strL v => some v
  | _ => none

/-- `getObjectProperty` of `src/extract/zod.js`: first `ObjectProperty` of
an `ObjectExpression` whose key has the given name. -/
def getObjectProperty : Option JsExpr → String → Option JsExpr
  | some (.objL props), keyName => go props keyName
  | _, _ => none
where
  go : List JsProp → String → Option JsExpr
    | [], _ => none
    | .objProp key value :: rest, keyName =>
      if getPropertyNameJ key = some keyName then some value else go rest keyName
    | .otherProp :: rest, keyName => go rest keyName

/-! ## SchemaNode -/

/-- A literal example value attached to a schema. -/
inductive JsLit where
  | s (v : String)
  | i (v : Int)
  | b (v : Bool)
  deriving DecidableEq

/-- The structural schema objects the resolvers build: a `type` tag plus
the optional `properties` / `required` / `items` / `example` fields and the
`optional` flag set by `.optional()`. -/
inductive SchemaNode where
  | mk (ty : String) (properties : Option (List (String × SchemaNode)))
      (required : Option (List String)) (items : Option SchemaNode)
      (exampleV : Option JsLit) (optional : Bool)

def SchemaNode.ty : SchemaNode → String
  | .mk t _ _ _ _ _ => t

def SchemaNode.properties : SchemaNode → Option (List (String × SchemaNode))
  | .mk _ p _ _ _ _ => p

def SchemaNode.required : SchemaNode → Option (List String)
  | .mk _ _ r _ _ _ => r

def SchemaNode.items : SchemaNode → Option SchemaNode
  | .mk _ _ _ i _ _ => i

def SchemaNode.exampleV : SchemaNode → Option JsLit
  | .mk _ _ _ _ e _ => e

def SchemaNode.optional : SchemaNode → Bool
  | .mk _ _ _ _ _ o => o

/-- JS `base.optional = true`. -/
def SchemaNode.setOptional : SchemaNode → SchemaNode
  | .mk t p r i e _ => .mk t p r i e true

/-- JS `base.example = v`. -/
def SchemaNode.setExample : SchemaNode → JsLit → SchemaNode
  | .mk t p r i _ o, v => .mk t p r i (some v) o

/-- `{ type: 'string' }` -/
def strSchema : SchemaNode := .mk "string" none none none none false

/-- `{ type: 'number' }` -/
def numSchema : SchemaNode := .mk "number" none none none none false

/-- `{ type: 'boolean' }` -/
def boolSchema : SchemaNode := .mk "boolean" none none none none false

/-- `{ type: 'object' }` (no properties) -/
def objSchema : SchemaNode := .mk "object" none none none none false

/-! ## Zod schema resolver (`src/extract/zod.js`)

`resolveZodSchema(node, schemaDefs, depth)` is embedded with an explicit
fuel argument that models the JS call stack: every recursive call costs one
unit, and a `none` result means the fuel ran out (which theorem
`zod_resolution_terminates` below rules out for sufficient fuel).  The
`node` argument is an `Option` because the source may pass `undefined`
(e.g. `z.array()` with no argument). -/

mutual
def resolveZodSchemaF : Nat → Option JsExpr → List (String × JsExpr) → Nat → Option SchemaNode
  | 0, _, _, _ => none
  | Nat.succ n, node?, defs, depth =>
    match node? with
    | none => some strSchema
    | some node =>
      if 10 < depth then some strSchema
      else
        match node with
        | .identL name =>
          match alookup defs name with
          | some stored => resolveZodSchemaF n (some stored) defs (depth + 1)
          | none => some objSchema
        | .callM obj propName args =>
          match propName with
          | some "string" => some strSchema
          | some "number" => some numSchema
          | some "boolean" => some boolSchema
          | some "object" =>
            match args.head? with
            | some (.objL props) =>
              match zodPropsF n props defs (depth + 1) ([], []) with
              | none => none
              | some (properties, required) =>
                some (.mk "object" (some properties)
                  (if required.length ≠ 0 then some required else none) none none false)
            | _ => some objSchema
          | some "array" =>
            match resolveZodSchemaF n args.head? defs (depth + 1) with
            | none => none
            | some items => some (.mk "array" none none (some items) none false)
          | some "openapi" =>
            match resolveZodSchemaF n (some obj) defs (depth + 1) with
            | none => none
            | some base =>
              match getObjectProperty args.head? "example" with
              | some (.strL v) => some (base.setExample (.s v))
              | some (.numL v) => some (base.setExample (.i v))
              | some (.boolL v) => some (base.setExample (.b v))
              | _ => some base
          | some "optional" =>
            match resolveZodSchemaF n (some obj) defs (depth + 1) with
            | none => none
            | some base => some base.setOptional
          | _ => resolveZodSchemaF n (some obj) defs (depth + 1)
        | .memberL obj propName =>
          match propName with
          | some "string" => some strSchema
          | some "number" => some numSchema
          | some "boolean" => some boolSchema
          | _ => resolveZodSchemaF n (some obj) defs (depth + 1)
        | _ => some strSchema

/-- The property loop of the `z.object({...})` case: accumulates the
`properties` object (JS duplicate keys overwrite in place) and the
`required` array. -/
def zodPropsF : Nat → List JsProp → List (String × JsExpr) → Nat →
    List (String × SchemaNode) × List String →
    Option (List (String × SchemaNode) × List String)
  | 0, _, _, _, _ => none
  | Nat.succ _, [], _, _, acc => some acc
  | Nat.succ n, p :: rest, defs, depth, acc =>
    match p with
    | .otherProp => zodPropsF n rest defs depth acc
    | .objProp key value =>
      match getPropertyNameJ key with
      | none => zodPropsF n rest defs depth acc
      | some name =>
        match resolveZodSchemaF n (some value) defs depth with
        | none => none
        | some propSchema =>
          zodPropsF n rest defs depth
            (aset acc.1 name propSchema,
              if propSchema.optional then acc.2 else acc.2 ++ [name])
end

/-! ### Termination of the zod resolver

Every recursive call of `resolveZodSchema` increments `depth`, and calls
that jump to a stored definition are cut off once `depth` passes 10, so
the recursion depth is bounded by a measure combining the remaining depth
budget with the syntactic size of the node.  `zod_fuel_suffices` shows the
fuel version always returns `some` once the fuel exceeds that measure. -/

mutual
def sizeE : JsExpr → Nat
  | .strL _ => 1
  | .tmplL _ => 1
  | .numL _ => 1
  | .boolL _ => 1
  | .identL _ => 1
  | .objL props => 1 + sizePs props
  | .memberL obj _ => 1 + sizeE obj
  | .callM obj _ args => 1 + sizeE obj + sizeEs args
  | .callI _ args => 1 + sizeEs args
  | .otherE => 1

def sizeEs : List JsExpr → Nat
  | [] => 0
  | e :: r => 1 + sizeE e + sizeEs r

def sizePs : List JsProp → Nat
  | [] => 0
  | p :: r => sizeP p + sizePs r

def sizeP : JsProp → Nat
  | .objProp key value => 1 + sizeE key + sizeE value
  | .otherProp => 1
end

def sizeOptE : Option JsExpr → Nat
  | none => 0
  | some e => sizeE e

@[simp] theorem sizeOptE_some (e : JsExpr) : sizeOptE (some e) = sizeE e := rfl

@[simp] theorem sizeOptE_none : sizeOptE none = 0 := rfl

/-- Total size of all stored definitions. -/
def sizeDefs (defs : List (String × JsExpr)) : Nat :=
  defs.foldr (fun p acc => sizeE p.2 + acc) 0

theorem alookup_size_le (defs : List (String × JsExpr)) (name : String)
    (e : JsExpr) (h : alookup defs name = some e) : sizeE e ≤ sizeDefs defs := by
  induction defs with
  | nil => simp [alookup] at h
  | cons p rest ih =>
    obtain ⟨k, v⟩ := p
    show sizeE e ≤ sizeE v + sizeDefs rest
    by_cases hk : k = name
    · have hv : some v = some e := by simpa [alookup, hk] using h
      have hv2 : v = e := by injection hv
      rw [← hv2]
      omega
    · have h2 : alookup rest name = some e := by simpa [alookup, hk] using h
      have := ih h2
      omega

set_option linter.unnecessarySeqFocus false in
theorem sizeE_pos (e : JsExpr) : 1 ≤ sizeE e := by
  cases e <;> simp [sizeE] <;> omega

set_option linter.unnecessarySeqFocus false in
theorem sizeP_pos (p : JsProp) : 1 ≤ sizeP p := by
  cases p <;> simp [sizeP] <;> omega

theorem head?_sizeE_le (args : List JsExpr) (a : JsExpr)
    (h : args.head? = some a) : sizeE a ≤ sizeEs args := by
  cases args with
  | nil => simp at h
  | cons x r =>
    have hx : x = a := by injection h
    have h1 : sizeEs (x :: r) = 1 + sizeE x + sizeEs r := rfl
    rw [h1, ← hx]
    omega

theorem sizeOptE_head_le (args : List JsExpr) : sizeOptE args.head? ≤ sizeEs args := by
  cases args with
  | nil => simp
  | cons x r =>
    show sizeE x ≤ 1 + sizeE x + sizeEs r
    omega

/-- Measure for a `resolveZodSchema` call. -/
def muZ (defs : List (String × JsExpr)) (node? : Option JsExpr) (depth : Nat) : Nat :=
  (12 - min depth 12) * (sizeDefs defs + 1) + sizeOptE node?

/-- Measure for a `zodPropsF` call. -/
def muZP (defs : List (String × JsExpr)) (props : List JsProp) (depth : Nat) : Nat :=
  (12 - min depth 12) * (sizeDefs defs + 1) + sizePs props

theorem muZ_step_lt {defs : List (String × JsExpr)} {node : JsExpr} {depth n : Nat}
    (hd : ¬ 10 < depth) (hμ : muZ defs (some node) depth < n + 1)
    (tgt : Option JsExpr) (hY : sizeOptE tgt + 1 ≤ sizeDefs defs + 1 + sizeE node) :
    muZ defs tgt (depth + 1) < n := by
  have hmin1 : min depth 12 = depth := by omega
  have hmin2 : min (depth + 1) 12 = depth + 1 := by omega
  unfold muZ at hμ ⊢
  rw [hmin1] at hμ
  rw [hmin2]
  have h2 : 12 - depth = (12 - (depth + 1)) + 1 := by omega
  rw [h2, Nat.succ_mul] at hμ
  simp only [sizeOptE_some] at hμ
  generalize (12 - (depth + 1)) * (sizeDefs defs + 1) = P at hμ ⊢
  omega

theorem muZP_step_lt {defs : List (String × JsExpr)} {node : JsExpr} {depth n : Nat}
    (hd : ¬ 10 < depth) (hμ : muZ defs (some node) depth < n + 1)
    (props : List JsProp) (hY : sizePs props + 1 ≤ sizeDefs defs + 1 + sizeE node) :
    muZP defs props (depth + 1) < n := by
  have hmin1 : min depth 12 = depth := by omega
  have hmin2 : min (depth + 1) 12 = depth + 1 := by omega
  unfold muZ at hμ
  unfold muZP
  rw [hmin1] at hμ
  rw [hmin2]
  have h2 : 12 - depth = (12 - (depth + 1)) + 1 := by omega
  rw [h2, Nat.succ_mul] at hμ
  simp only [sizeOptE_some] at hμ
  generalize (12 - (depth + 1)) * (sizeDefs defs + 1) = P at hμ ⊢
  omega

theorem muZP_tail_lt {defs : List (String × JsExpr)} {p : JsProp}
    {rest : List JsProp} {depth n : Nat}
    (hμ : muZP defs (p :: rest) depth < n + 1) : muZP defs rest depth < n := by
  unfold muZP at hμ ⊢
  have h1 : sizePs (p :: rest) = sizeP p + sizePs rest := rfl
  rw [h1] at hμ
  have := sizeP_pos p
  generalize (12 - min depth 12) * (sizeDefs defs + 1) = P at hμ ⊢
  omega

theorem muZ_value_lt {defs : List (String × JsExpr)} {key value : JsExpr}
    {rest : List JsProp} {depth n : Nat}
    (hμ : muZP defs (.objProp key value :: rest) depth < n + 1) :
    muZ defs (some value) depth < n := by
  unfold muZP at hμ
  unfold muZ
  have h1 : sizePs (.objProp key value :: rest) = (1 + sizeE key + sizeE value) + sizePs rest := rfl
  rw [h1] at hμ
  simp only [sizeOptE_some]
  generalize (12 - min depth 12) * (sizeDefs defs + 1) = P at hμ ⊢
  omega

theorem zod_fuel_suffices : ∀ n : Nat,
    (∀ (defs : List (String × JsExpr)) (node? : Option JsExpr) (depth : Nat),
      muZ defs node? depth < n → (resolveZodSchemaF n node? defs depth).isSome = true) ∧
    (∀ (defs : List (String × JsExpr)) (props : List JsProp) (depth : Nat)
      (acc : List (String × SchemaNode) × List String),
      muZP defs props depth < n → (zodPropsF n props defs depth acc).isSome = true) := by
  intro n
  induction n with
  | zero =>
    constructor
    · intro _ _ _ h; exact absurd h (Nat.not_lt_zero _)
    · intro _ _ _ _ h; exact absurd h (Nat.not_lt_zero _)
  | succ n ih =>
    constructor
    · intro defs node? depth hμ
      cases node? with
      | none => simp [resolveZodSchemaF]
      | some node =>
        by_cases hd : 10 < depth
        · simp [resolveZodSchemaF, hd]
        · cases node with
          | strL v => simp [resolveZodSchemaF, hd]
          | tmplL q => simp [resolveZodSchemaF, hd]
          | numL v => simp [resolveZodSchemaF, hd]
          | boolL v => simp [resolveZodSchemaF, hd]
          | otherE => simp [resolveZodSchemaF, hd]
          | objL props => simp [resolveZodSchemaF, hd]
          | callI nm args => simp [resolveZodSchemaF, hd]
          | identL name =>
            rcases halo : alookup defs name with _ | stored
            · simp [resolveZodSchemaF, hd, halo]
            · have hrec : muZ defs (some stored) (depth + 1) < n := by
                apply muZ_step_lt hd hμ
                have := alookup_size_le defs name stored halo
                simp only [sizeOptE_some]
                have h1 : sizeE (.identL name : JsExpr) = 1 := rfl
                omega
              simp only [resolveZodSchemaF, if_neg hd, halo]
              exact ih.1 defs (some stored) (depth + 1) hrec
          | memberL obj pn =>
            have hrec : muZ defs (some obj) (depth + 1) < n := by
              apply muZ_step_lt hd hμ
              have h1 : sizeE (.memberL obj pn) = 1 + sizeE obj := rfl
              simp only [sizeOptE_some]
              omega
            simp only [resolveZodSchemaF, if_neg hd]
            split
            · rfl
            · rfl
            · rfl
            · exact ih.1 defs (some obj) (depth + 1) hrec
          | callM obj pn args =>
            have hsz : sizeE (.callM obj pn args) = 1 + sizeE obj + sizeEs args := rfl
            have hrecObj : muZ defs (some obj) (depth + 1) < n := by
              apply muZ_step_lt hd hμ
              simp only [sizeOptE_some]
              omega
            simp only [resolveZodSchemaF, if_neg hd]
            split
            · rfl
            · rfl
            · rfl
            · -- z.object
              split
              · -- first argument is an ObjectExpression
                rename_i props hhead
                have hprops : muZP defs props (depth + 1) < n := by
                  apply muZP_step_lt hd hμ
                  have h2 := head?_sizeE_le args _ hhead
                  have h3 : sizeE (.objL props) = 1 + sizePs props := rfl
                  omega
                have hsome := ih.2 defs props (depth + 1) ([], []) hprops
                obtain ⟨val, hval⟩ := Option.isSome_iff_exists.mp hsome
                rw [hval]
                obtain ⟨ps, rq⟩ := val
                rfl
              · rfl
            · -- z.array
              have hrec : muZ defs args.head? (depth + 1) < n := by
                apply muZ_step_lt hd hμ
                have h2 := sizeOptE_head_le args
                omega
              have hsome := ih.1 defs args.head? (depth + 1) hrec
              obtain ⟨val, hval⟩ := Option.isSome_iff_exists.mp hsome
              rw [hval]
              rfl
            · -- .openapi
              have hsome := ih.1 defs (some obj) (depth + 1) hrecObj
              obtain ⟨val, hval⟩ := Option.isSome_iff_exists.mp hsome
              rw [hval]
              rcases hg : getObjectProperty args.head? "example" with _ | g
              · rfl
              · cases g <;> rfl
            · -- .optional
              have hsome := ih.1 defs (some obj) (depth + 1) hrecObj
              obtain ⟨val, hval⟩ := Option.isSome_iff_exists.mp hsome
              rw [hval]
              rfl
            · -- unrecognized chain method: recurse on the receiver
              exact ih.1 defs (some obj) (depth + 1) hrecObj
    · intro defs props depth acc hμ
      cases props with
      | nil => simp [zodPropsF]
      | cons p rest =>
        cases p with
        | otherProp =>
          simp only [zodPropsF]
          exact ih.2 defs rest depth acc (muZP_tail_lt hμ)
        | objProp key value =>
          simp only [zodPropsF]
          split
          · exact ih.2 defs rest depth acc (muZP_tail_lt hμ)
          · rename_i name hname
            have hv := ih.1 defs (some value) depth (muZ_value_lt hμ)
            obtain ⟨val, hval⟩ := Option.isSome_iff_exists.mp hv
            rw [hval]
            exact ih.2 defs rest depth _ (muZP_tail_lt hμ)

/-- Termination of the zod resolver: with fuel one past the measure (for
any definition map, node and starting depth) the resolver returns a result. -/
theorem resolveZod_total (defs : List (String × JsExpr)) (node? : Option JsExpr)
    (depth : Nat) :
    (resolveZodSchemaF (muZ defs node? depth + 1) node? defs depth).isSome = true :=
  (zod_fuel_suffices (muZ defs node? depth + 1)).1 defs node? depth (Nat.lt_succ_self _)

/-- Past the depth cap the zod resolver returns a string schema for every
node (the `if (!node || depth > 10) return { type: 'string' }` guard). -/
theorem resolveZod_past_cap (n : Nat) (node : JsExpr)
    (defs : List (String × JsExpr)) (d : Nat) (hd : 10 < d) :
    resolveZodSchemaF (n + 1) (some node) defs d = some strSchema := by
  simp [resolveZodSchemaF, hd]

/-- A variable reference whose name is not in the definition map resolves
to the generic `object` schema. -/
theorem resolveZod_unknown_ident (n : Nat) (name : String)
    (defs : List (String × JsExpr)) (d : Nat) (hd : ¬ 10 < d)
    (h : alookup defs name = none) :
    resolveZodSchemaF (n + 1) (some (.identL name)) defs d = some objSchema := by
  simp [resolveZodSchemaF, hd, h]

/-- An 11-deep nest of `z.array(...)` calls around `z.boolean()`. -/
def mkDeepArray : Nat → JsExpr
  | 0 => .callM (.identL "z") (some "boolean") []
  | n + 1 => .callM (.identL "z") (some "array") [mkDeepArray n]

/-- The corresponding nested `array` schema with a given innermost node. -/
def wrapArray : Nat → SchemaNode → SchemaNode
  | 0, s => s
  | n + 1, s => .mk "array" none none (some (wrapArray n s)) none false

/-- Walk `n` levels of `items`. -/
def itemsAt : Nat → SchemaNode → Option SchemaNode
  | 0, s => some s
  | n + 1, s =>
    match s.items with
    | some i => itemsAt n i
    | none => none

/-! ## NestJS extractor (`src/extract/nestjs.js`)

TypeScript type-annotation nodes.  `tsRef` is a `TSTypeReference` whose
`typeName` is an `Identifier`; an empty `typeParams` list models absent
`typeParameters`.  A `TSTypeReference` with a qualified name and all other
unrecognized shapes are `tsOther` (both fall through to the same final
`return` of `schemaFromTypeNode`). -/

mutual
inductive TypeNode where
  | tsString
  | tsNumber
  | tsBoolean
  | tsArray (elementType : TypeNode)
  | tsRef (name : String) (typeParams : List TypeNode)
  | tsLiteral (members : List TSMember)
  | tsOther

inductive TSMember where
  | propSig (key : JsExpr) (tyAnn : Option TypeNode)
  | otherMember
end

/-- A decorator node; only its `expression` is read. -/
structure Decorator where
  expression : JsExpr

/-- `getDecoratorName` (`src/extract/nestjs.js` lines 29-37). -/
def getDecoratorName (dec : Decorator) : Option String :=
  match dec.expression with
  | .callI name _ => some name
  | .identL name => some name
  | _ => none

/-- `getDecoratorArgs` (lines 39-43). -/
def getDecoratorArgs (dec : Decorator) : List JsExpr :=
  match dec.expression with
  | .callI _ args => args
  | .callM _ _ args => args
  | _ => []

/-- `getStringArg` (lines 45-54): first argument when it is a string
literal or a one-quasi template literal. -/
def getStringArg (dec : Decorator) : String :=
  match (getDecoratorArgs dec).head? with
  | some (.strL v) => v
  | some (.tmplL [q]) => q
  | _ => ""

/-- `getTagsFromDecorator` (lines 56-63). -/
def getTagsFromDecorator (dec : Decorator) : List String :=
  (getDecoratorArgs dec).filterMap fun a =>
    match a with
    | .strL v => some v
    | _ => none

/-- `getSummaryFromDecorator` (lines 65-76). -/
def getSummaryFromDecorator (dec : Decorator) : Option String :=
  match (getDecoratorArgs dec).head? with
  | some (.objL props) => go props
  | _ => none
where
  go : List JsProp → Option String
    | [] => none
    | .objProp (.identL "summary") (.strL v) :: _ => some v
    | _ :: rest => go rest

/-- `getDecoratorObjectArg` (lines 85-90). -/
def getDecoratorObjectArg (dec : Decorator) : Option (List JsProp) :=
  match (getDecoratorArgs dec).head? with
  | some (.objL props) => some props
  | _ => none

def OPTIONAL_DECORATORS : List String := ["IsOptional", "ApiPropertyOptional"]

def TYPE_DECORATORS : List (String × String) :=
  [("IsString", "string"), ("IsEmail", "string"), ("IsUUID", "string"),
   ("IsInt", "number"), ("IsNumber", "number"), ("Min", "number"),
   ("Max", "number"), ("IsBoolean", "boolean")]

/-- JS `String.prototype.toLowerCase` restricted to ASCII. -/
def lowerStr (s : String) : String :=
  ⟨s.data.map Char.toLower⟩

/-- The meta information `getPropMetaFromDecorators` accumulates. -/
structure PropMeta where
  optional : Bool := false
  exampleV : Option JsLit := none
  overrideType : Option String := none

/-- One iteration of the object-argument loop inside
`getPropMetaFromDecorators` (lines 106-122). -/
def apiPropObjStep (meta : PropMeta) (p : JsProp) : PropMeta :=
  match p with
  | .objProp (.identL "required") (.boolL v) =>
    if v = false then { meta with optional := true } else meta
  | .objProp (.identL "example") (.strL v) => { meta with exampleV := some (.s v) }
  | .objProp (.identL "example") (.numL v) => { meta with exampleV := some (.i v) }
  | .objProp (.identL "example") (.boolL v) => { meta with exampleV := some (.b v) }
  | .objProp (.identL "type") (.identL tname) =>
    { meta with overrideType := some (lowerStr tname) }
  | _ => meta

/-- One decorator of `getPropMetaFromDecorators` (lines 92-127). -/
def getPropMetaStep (meta : PropMeta) (dec : Decorator) : PropMeta :=
  match getDecoratorName dec with
  | none => meta
  | some name =>
    let m1 := if name ∈ OPTIONAL_DECORATORS then { meta with optional := true } else meta
    let m2 :=
      match alookup TYPE_DECORATORS name with
      | some t => { m1 with overrideType := some t }
      | none => m1
    if name = "ApiProperty" ∨ name = "ApiPropertyOptional" then
      let m3 := if name = "ApiPropertyOptional" then { m2 with optional := true } else m2
      match getDecoratorObjectArg dec with
      | some props => props.foldl apiPropObjStep m3
      | none => m3
    else m2

def getPropMetaFromDecorators (decorators : List Decorator) : PropMeta :=
  decorators.foldl getPropMetaStep {}

/-- One property entry of a `DtoDefinition`. -/
structure DtoProp where
  name : String
  optional : Bool
  typeNode : Option TypeNode
  exampleV : Option JsLit
  overrideType : Option String

/-- A collected DTO class. -/
structure DtoDef where
  name : String
  props : List DtoProp

def DtoProp.toMeta (p : DtoProp) : PropMeta :=
  { optional := p.optional, exampleV := p.exampleV, overrideType := p.overrideType }

/-- The `.left` of an `AssignmentPattern` parameter. -/
structure BareParam where
  decorators : Option (List Decorator)
  typeAnn : Option TypeNode

/-- A formal method parameter.  `decorators = some []` models a present but
empty Babel `decorators` array (truthy in JS), `none` models an absent one. -/
structure ParamNode where
  decorators : Option (List Decorator)
  typeAnn : Option TypeNode
  left : Option BareParam

/-- A class-member function value (`ArrowFunctionExpression`,
`FunctionExpression`, or anything else). -/
inductive FnValue where
  | arrowFn (params : List ParamNode)
  | funcExpr (params : List ParamNode)
  | otherVal

/-- A class-body member. -/
inductive ClassMember where
  | classMethod (decorators : List Decorator) (params : List ParamNode)
  | classProperty (key : JsExpr) (optionalFlag : Bool) (decorators : List Decorator)
      (typeAnn : Option TypeNode) (value : Option FnValue)
  | otherClassMember

/-- A top-level class declaration. -/
structure ClassDecl where
  idName : Option String
  decorators : List Decorator
  body : List ClassMember

end PostApiSync

namespace PostApiSync

/-- The `ClassProperty` loop of `collectDtoSchemasFromAst` (lines 139-147). -/
def collectDtoProps (members : List ClassMember) : List DtoProp :=
  members.filterMap fun m =>
    match m with
    | .classProperty key opt decs tyAnn _ =>
      match getPropertyNameJ key with
      | some name =>
        let meta := getPropMetaFromDecorators decs
        some { name := name, optional := (opt || meta.optional),
               typeNode := tyAnn, exampleV := meta.exampleV,
               overrideType := meta.overrideType }
      | none => none
    | _ => none

/-- `collectDtoSchemasFromAst` (lines 129-154) over the file's class
declarations in traversal order.  The cross-file DTO import augmentation of
`collectDtoSchemas` (lines 193-213) performs on-demand filesystem parses
and is not modelled; the embedding covers the same-file map, which is the
whole map whenever no relative import resolves. -/
def collectDtoSchemasFromAst (classes : List ClassDecl) : List (String × DtoDef) :=
  classes.foldl
    (fun dtoMap c =>
      match c.idName with
      | none => dtoMap
      | some className =>
        let props := collectDtoProps c.body
        if props.length ≠ 0 then aset dtoMap className ⟨className, props⟩ else dtoMap)
    []

/-- The shared final `return` of `schemaFromTypeNode` (lines 216-219 and
259-260): override type or generic object, both carrying `meta.example`. -/
def metaFallback (meta : PropMeta) (memo : List (String × SchemaNode)) :
    Option (SchemaNode × List (String × SchemaNode)) :=
  match meta.overrideType with
  | some t => some (.mk t none none none meta.exampleV false, memo)
  | none => some (.mk "object" none none none meta.exampleV false, memo)

/-! `schemaFromTypeNode` / `buildSchemaForDto` (lines 215-280), fuel-indexed:
each JS call consumes one unit of fuel, `none` means the budget ran out
(`nest_fuel_suffices` below rules that out for fuel past the measure).  The
JS `memo` map holds mutable references that are filled in place; the
embedding threads the memo as state and re-stores the finished schema under
the DTO name once built, which observably differs from the source only at a
memo hit on a cycle still under construction (the placeholder seen there is
the empty-properties snapshot rather than the partially filled object). -/

mutual
def schemaFromTypeNodeF (fuel : Nat) (typeNode? : Option TypeNode)
    (dtoMap : List (String × DtoDef)) (depth : Nat)
    (memo : List (String × SchemaNode)) (meta : PropMeta) :
    Option (SchemaNode × List (String × SchemaNode)) :=
  match fuel with
  | 0 => none
  | Nat.succ n =>
    match typeNode? with
    | none => metaFallback meta memo
    | some typeNode =>
      match typeNode with
      | .tsString => some (.mk "string" none none none meta.exampleV false, memo)
      | .tsNumber => some (.mk "number" none none none meta.exampleV false, memo)
      | .tsBoolean => some (.mk "boolean" none none none meta.exampleV false, memo)
      | .tsArray elementType =>
        match schemaFromTypeNodeF n (some elementType) dtoMap (depth + 1) memo {} with
        | none => none
        | some (items, memo') => some (.mk "array" none none (some items) none false, memo')
      | .tsRef name typeParams =>
        if name = "Array" ∧ typeParams.length = 1 then
          match schemaFromTypeNodeF n typeParams.head? dtoMap (depth + 1) memo {} with
          | none => none
          | some (items, memo') => some (.mk "array" none none (some items) none false, memo')
        else if ahas dtoMap name ∧ depth < 2 then
          buildSchemaForDtoF n name dtoMap (depth + 1) memo
        else
          metaFallback meta memo
      | .tsLiteral members =>
        match literalMembersF n members dtoMap (depth + 1) memo [] with
        | none => none
        | some (properties, memo') =>
          some (.mk "object" (some properties) none none none false, memo')
      | .tsOther => metaFallback meta memo
  termination_by structural fuel

/-- The `TSTypeLiteral` member loop (lines 248-256). -/
def literalMembersF (fuel : Nat) (ms : List TSMember)
    (dtoMap : List (String × DtoDef)) (depth : Nat)
    (memo : List (String × SchemaNode)) (acc : List (String × SchemaNode)) :
    Option (List (String × SchemaNode) × List (String × SchemaNode)) :=
  match fuel, ms with
  | 0, _ => none
  | Nat.succ _, [] => some (acc, memo)
  | Nat.succ n, m :: rest =>
    match m with
    | .otherMember => literalMembersF n rest dtoMap depth memo acc
    | .propSig key tyAnn =>
      match getPropertyNameJ key with
      | none => literalMembersF n rest dtoMap depth memo acc
      | some name =>
        match schemaFromTypeNodeF n tyAnn dtoMap depth memo {} with
        | none => none
        | some (propSchema, memo') =>
          literalMembersF n rest dtoMap depth memo' (aset acc name propSchema)
  termination_by structural fuel

def buildSchemaForDtoF (fuel : Nat) (dtoName : String)
    (dtoMap : List (String × DtoDef)) (depth : Nat)
    (memo : List (String × SchemaNode)) :
    Option (SchemaNode × List (String × SchemaNode)) :=
  match fuel with
  | 0 => none
  | Nat.succ n =>
    match alookup memo dtoName with
    | some s => some (s, memo)
    | none =>
      match alookup dtoMap dtoName with
      | none => some (objSchema, memo)
      | some dto =>
        let memo1 := aset memo dtoName (.mk "object" (some []) none none none false)
        match dtoPropsF n dto.props dtoMap depth memo1 ([], []) with
        | none => none
        | some ((properties, required), memo2) =>
          let schema : SchemaNode := .mk "object" (some properties)
            (if required.length ≠ 0 then some required else none) none none false
          some (schema, aset memo2 dtoName schema)
  termination_by structural fuel

/-- The `dto.props` loop of `buildSchemaForDto` (lines 271-276). -/
def dtoPropsF (fuel : Nat) (props : List DtoProp)
    (dtoMap : List (String × DtoDef)) (depth : Nat)
    (memo : List (String × SchemaNode))
    (acc : List (String × SchemaNode) × List String) :
    Option ((List (String × SchemaNode) × List String) × List (String × SchemaNode)) :=
  match fuel, props with
  | 0, _ => none
  | Nat.succ _, [] => some (acc, memo)
  | Nat.succ n, prop :: rest =>
    match schemaFromTypeNodeF n prop.typeNode dtoMap (depth + 1) memo prop.toMeta with
    | none => none
    | some (propSchema, memo') =>
      dtoPropsF n rest dtoMap depth memo'
        (aset acc.1 prop.name propSchema,
          if prop.optional then acc.2 else acc.2 ++ [prop.name])
  termination_by structural fuel
end

/-! ### Reference-faithful memo model

The JS `memo` of `buildSchemaForDto` stores a *reference* to the schema
object and fills its properties in place afterwards, so a memo hit hands
out an alias of the (possibly still under construction) object and the
final result can be a circular object graph.  The `…R` functions below
model this exactly: schema values live in a heap keyed by DTO name,
`buildSchemaForDto`'s return value is a reference into that heap
(`SchemaR.ref`), and property maps may contain such references.  A result
is a finite well-formed `SchemaNode` precisely when `derefSchemaF` can
unfold it to a tree within some fuel. -/

/-- A schema value whose properties and items may reference heap cells
(the objects `memo.set` stored) by DTO name. -/
inductive SchemaR where
  | mk (ty : String) (properties : Option (List (String × SchemaR)))
      (required : Option (List String)) (items : Option SchemaR)
      (exampleV : Option JsLit) (optional : Bool)
  | ref (name : String)

/-- The fresh `{ type: 'object' }` object of the missing-DTO fallback. -/
def objSchemaR : SchemaR := .mk "object" none none none none false

/-- `metaFallback` in the reference model. -/
def metaFallbackR (meta : PropMeta) (heap : List (String × SchemaR)) :
    Option (SchemaR × List (String × SchemaR)) :=
  match meta.overrideType with
  | some t => some (.mk t none none none meta.exampleV false, heap)
  | none => some (.mk "object" none none none meta.exampleV false, heap)

mutual
def schemaFromTypeNodeR (fuel : Nat) (typeNode? : Option TypeNode)
    (dtoMap : List (String × DtoDef)) (depth : Nat)
    (heap : List (String × SchemaR)) (meta : PropMeta) :
    Option (SchemaR × List (String × SchemaR)) :=
  match fuel with
  | 0 => none
  | Nat.succ n =>
    match typeNode? with
    | none => metaFallbackR meta heap
    | some typeNode =>
      match typeNode with
      | .tsString => some (.mk "string" none none none meta.exampleV false, heap)
      | .tsNumber => some (.mk "number" none none none meta.exampleV false, heap)
      | .tsBoolean => some (.mk "boolean" none none none meta.exampleV false, heap)
      | .tsArray elementType =>
        match schemaFromTypeNodeR n (some elementType) dtoMap (depth + 1) heap {} with
        | none => none
        | some (items, heap') => some (.mk "array" none none (some items) none false, heap')
      | .tsRef name typeParams =>
        if name = "Array" ∧ typeParams.length = 1 then
          match schemaFromTypeNodeR n typeParams.head? dtoMap (depth + 1) heap {} with
          | none => none
          | some (items, heap') => some (.mk "array" none none (some items) none false, heap')
        else if ahas dtoMap name ∧ depth < 2 then
          buildSchemaForDtoR n name dtoMap (depth + 1) heap
        else
          metaFallbackR meta heap
      | .tsLiteral members =>
        match literalMembersR n members dtoMap (depth + 1) heap [] with
        | none => none
        | some (properties, heap') =>
          some (.mk "object" (some properties) none none none false, heap')
      | .tsOther => metaFallbackR meta heap
  termination_by structural fuel

def literalMembersR (fuel : Nat) (ms : List TSMember)
    (dtoMap : List (String × DtoDef)) (depth : Nat)
    (heap : List (String × SchemaR)) (acc : List (String × SchemaR)) :
    Option (List (String × SchemaR) × List (String × SchemaR)) :=
  match fuel, ms with
  | 0, _ => none
  | Nat.succ _, [] => some (acc, heap)
  | Nat.succ n, m :: rest =>
    match m with
    | .otherMember => literalMembersR n rest dtoMap depth heap acc
    | .propSig key tyAnn =>
      match getPropertyNameJ key with
      | none => literalMembersR n rest dtoMap depth heap acc
      | some name =>
        match schemaFromTypeNodeR n tyAnn dtoMap depth heap {} with
        | none => none
        | some (propSchema, heap') =>
          literalMembersR n rest dtoMap depth heap' (aset acc name propSchema)
  termination_by structural fuel

def buildSchemaForDtoR (fuel : Nat) (dtoName : String)
    (dtoMap : List (String × DtoDef)) (depth : Nat)
    (heap : List (String × SchemaR)) :
    Option (SchemaR × List (String × SchemaR)) :=
  match fuel with
  | 0 => none
  | Nat.succ n =>
    match alookup heap dtoName with
    | some _ => some (.ref dtoName, heap)
    | none =>
      match alookup dtoMap dtoName with
      | none => some (objSchemaR, heap)
      | some dto =>
        let heap1 := aset heap dtoName (.mk "object" (some []) none none none false)
        match dtoPropsR n dto.props dtoMap depth heap1 ([], []) with
        | none => none
        | some ((properties, required), heap2) =>
          let schema : SchemaR := .mk "object" (some properties)
            (if required.length ≠ 0 then some required else none) none none false
          some (.ref dtoName, aset heap2 dtoName schema)
  termination_by structural fuel

def dtoPropsR (fuel : Nat) (props : List DtoProp)
    (dtoMap : List (String × DtoDef)) (depth : Nat)
    (heap : List (String × SchemaR))
    (acc : List (String × SchemaR) × List String) :
    Option ((List (String × SchemaR) × List String) × List (String × SchemaR)) :=
  match fuel, props with
  | 0, _ => none
  | Nat.succ _, [] => some (acc, heap)
  | Nat.succ n, prop :: rest =>
    match schemaFromTypeNodeR n prop.typeNode dtoMap (depth + 1) heap prop.toMeta with
    | none => none
    | some (propSchema, heap') =>
      dtoPropsR n rest dtoMap depth heap'
        (aset acc.1 prop.name propSchema,
          if prop.optional then acc.2 else acc.2 ++ [prop.name])
  termination_by structural fuel
end

/-! Reading a heap value back as a plain finite `SchemaNode`: every step
costs one unit of fuel, so a cyclic object graph fails for every fuel. -/

mutual
def derefSchemaF (fuel : Nat) (heap : List (String × SchemaR)) (s : SchemaR) :
    Option SchemaNode :=
  match fuel with
  | 0 => none
  | Nat.succ n =>
    match s with
    | .ref name =>
      match alookup heap name with
      | none => none
      | some cell => derefSchemaF n heap cell
    | .mk ty props req items ex opt =>
      match derefOptPropsF n heap props with
      | none => none
      | some props' =>
        match derefOptSchemaF n heap items with
        | none => none
        | some items' => some (.mk ty props' req items' ex opt)
  termination_by structural fuel

def derefOptSchemaF (fuel : Nat) (heap : List (String × SchemaR))
    (o : Option SchemaR) : Option (Option SchemaNode) :=
  match fuel with
  | 0 => none
  | Nat.succ n =>
    match o with
    | none => some none
    | some s =>
      match derefSchemaF n heap s with
      | none => none
      | some t => some (some t)
  termination_by structural fuel

def derefOptPropsF (fuel : Nat) (heap : List (String × SchemaR))
    (o : Option (List (String × SchemaR))) :
    Option (Option (List (String × SchemaNode))) :=
  match fuel with
  | 0 => none
  | Nat.succ n =>
    match o with
    | none => some none
    | some l =>
      match derefPropsF n heap l with
      | none => none
      | some l' => some (some l')
  termination_by structural fuel

def derefPropsF (fuel : Nat) (heap : List (String × SchemaR))
    (l : List (String × SchemaR)) : Option (List (String × SchemaNode)) :=
  match fuel, l with
  | 0, _ => none
  | Nat.succ _, [] => some []
  | Nat.succ n, (k, v) :: rest =>
    match derefSchemaF n heap v with
    | none => none
    | some v' =>
      match derefPropsF n heap rest with
      | none => none
      | some rest' => some ((k, v') :: rest')
  termination_by structural fuel
end

/-- A `{name, required}` path or query parameter record. -/
structure NamedReq where
  name : String
  required : Bool

/-- `decoratorTarget` selection of `getParamDecorators` (line 283). -/
def decoratorTargetOf (p : ParamNode) : Option (List Decorator) × Option TypeNode :=
  if p.decorators.isSome then (p.decorators, p.typeAnn)
  else
    match p.left with
    | some b => (b.decorators, b.typeAnn)
    | none => (p.decorators, p.typeAnn)

/-- One decorator of the `getParamDecorators` loop (lines 289-322). -/
def applyParamDec (fuel : Nat) (dec : Decorator) (tyAnn : Option TypeNode)
    (dtoSchemas : List (String × DtoDef))
    (acc : List NamedReq × List NamedReq × Option SchemaNode) :
    Option (List NamedReq × List NamedReq × Option SchemaNode) :=
  match getDecoratorName dec with
  | none => some acc
  | some name =>
    let (params, query, body) := acc
    let arg := getStringArg dec
    match name with
    | "Param" =>
      some (if arg ≠ "" then params ++ [⟨arg, true⟩] else params, query, body)
    | "Query" =>
      if arg ≠ "" then some (params, query ++ [⟨arg, false⟩], body)
      else
        match tyAnn with
        | some (.tsRef dtoName _) =>
          match buildSchemaForDtoF fuel dtoName dtoSchemas 0 [] with
          | none => none
          | some (schema, _) =>
            match schema.properties with
            | some properties =>
              let qs := properties.map fun pr =>
                (⟨pr.1, match schema.required with
                  | some r => decide (pr.1 ∈ r)
                  | none => false⟩ : NamedReq)
              some (params, query ++ qs, body)
            | none => some (params, query, body)
        | _ => some (params, query, body)
    | "Body" =>
      match schemaFromTypeNodeF fuel tyAnn dtoSchemas 0 [] {} with
      | none => none
      | some (schema, _) => some (params, query, some schema)
    | _ => some (params, query, body)

/-- `getParamDecorators` (lines 282-325). -/
def getParamDecoratorsF (fuel : Nat) (paramNode : ParamNode)
    (dtoSchemas : List (String × DtoDef)) :
    Option (List NamedReq × List NamedReq × Option SchemaNode) :=
  let tgt := decoratorTargetOf paramNode
  (tgt.1.getD []).foldlM (fun acc dec => applyParamDec fuel dec tgt.2 dtoSchemas acc)
    ([], [], none)

def HTTP_DECORATORS : List (String × String) :=
  [("Get", "GET"), ("Post", "POST"), ("Put", "PUT"), ("Patch", "PATCH"),
   ("Delete", "DELETE"), ("Options", "OPTIONS"), ("Head", "HEAD")]

/-- The final NestJS endpoint record; the JS `parameters` object is
flattened into its three fields. -/
structure NEndpoint where
  method : String
  path : String
  description : String
  tags : Option (List String)
  paramsPath : Option (List NamedReq)
  paramsQuery : Option (List NamedReq)
  paramsBody : Option SchemaNode
  filePath : String
  key : String

/-- The class-decorator loop of `extractNestJsEndpoints` (lines 335-346). -/
def classBaseTags (decorators : List Decorator) : String × List String :=
  decorators.foldl
    (fun acc dec =>
      match getDecoratorName dec with
      | some "Controller" => (getStringArg dec, acc.2)
      | some "ApiTags" => (acc.1, acc.2 ++ getTagsFromDecorator dec)
      | _ => acc)
    ("", [])

/-- The method-decorator loop (lines 358-372): HTTP verb, path suffix and
`ApiOperation` summary. -/
def methodInfo (decorators : List Decorator) : Option String × String × Option String :=
  decorators.foldl
    (fun acc dec =>
      match getDecoratorName dec with
      | none => acc
      | some name =>
        match alookup HTTP_DECORATORS name with
        | some up => (some up, getStringArg dec, acc.2.2)
        | none =>
          if name = "ApiOperation" then
            (acc.1, acc.2.1,
              match getSummaryFromDecorator dec with
              | some s => some s
              | none => acc.2.2)
          else acc)
    (none, "", none)

/-- The decorators and formal parameters of a recognized member (method or
property holding a function), `none` when the member is skipped. -/
def memberParams : ClassMember → Option (List Decorator × List ParamNode)
  | .classMethod decs params => some (decs, params)
  | .classProperty _ _ decs _ (some (.arrowFn params)) => some (decs, params)
  | .classProperty _ _ decs _ (some (.funcExpr params)) => some (decs, params)
  | _ => none

/-- One class member of `extractNestJsEndpoints` (lines 349-402).  The
outer `Option` is fuel exhaustion; the inner one is a skipped member. -/
def memberEndpointF (fuel : Nat) (dtoSchemas : List (String × DtoDef))
    (basePath : String) (tags : List String) (filePath : String)
    (m : ClassMember) : Option (Option NEndpoint) :=
  match memberParams m with
  | none => some none
  | some (decorators, paramList) =>
    match methodInfo decorators with
    | (none, _, _) => some none
    | (some httpMethod, methodPath, description?) =>
      let fullPath := normalizePath (joinPaths basePath methodPath)
      match paramList.foldlM
          (fun acc p =>
            match getParamDecoratorsF fuel p dtoSchemas with
            | none => none
            | some (rp, rq, rb) =>
              some (acc.1 ++ rp, acc.2.1 ++ rq,
                match rb with
                | some x => some x
                | none => acc.2.2))
          (([], [], none) : List NamedReq × List NamedReq × Option SchemaNode) with
      | none => none
      | some (params, query, bodySchema) =>
        some (some
          { method := httpMethod
            path := fullPath
            description := description?.getD (httpMethod ++ " " ++ fullPath)
            tags := if tags.length ≠ 0 then some tags else none
            paramsPath := if params.length ≠ 0 then some params else none
            paramsQuery := if query.length ≠ 0 then some query else none
            paramsBody := bodySchema
            filePath := filePath
            key := toKey httpMethod fullPath })

/-- `extractNestJsEndpoints` (lines 327-408) over the parsed class
declarations of one file. -/
def extractNestJsEndpointsF (fuel : Nat) (filePath : String)
    (classes : List ClassDecl) : Option (List NEndpoint) :=
  let dtoSchemas := collectDtoSchemasFromAst classes
  classes.foldlM
    (fun acc c =>
      let bt := classBaseTags c.decorators
      c.body.foldlM
        (fun acc2 m =>
          match memberEndpointF fuel dtoSchemas bt.1 bt.2 filePath m with
          | none => none
          | some none => some acc2
          | some (some ep) => some (acc2 ++ [ep]))
        acc)
    []

/-! ### Depth-cap and fallback behavior of the NestJS schema resolver -/

theorem metaFallback_isSome (meta : PropMeta) (memo : List (String × SchemaNode)) :
    (metaFallback meta memo).isSome = true := by
  unfold metaFallback
  cases meta.overrideType <;> rfl

/-- Past the inline-reference depth cap (`depth < 2` fails) a type
reference that is not `Array<T>` resolves, whatever the DTO map holds, to
a schema with no properties: the decorator override type when the property
carries one (`meta.overrideType`, line 259), else the generic `object`. -/
theorem schemaFromTypeNode_past_cap (n : Nat) (dtoMap : List (String × DtoDef))
    (name : String) (typeParams : List TypeNode) (d : Nat)
    (memo : List (String × SchemaNode)) (meta : PropMeta) (hd : 2 ≤ d)
    (hn : ¬ (name = "Array" ∧ typeParams.length = 1)) :
    schemaFromTypeNodeF (n + 1) (some (.tsRef name typeParams)) dtoMap d memo meta =
      some (.mk (meta.overrideType.getD "object") none none none meta.exampleV false,
        memo) := by
  simp only [schemaFromTypeNodeF]
  rw [if_neg hn, if_neg (by rintro ⟨_, h2⟩; omega)]
  unfold metaFallback
  cases h : meta.overrideType <;> rfl

/-- A DTO name found in neither the memo nor the DTO map resolves to the
generic `{ type: 'object' }` schema. -/
theorem buildSchemaForDto_unknown (n : Nat) (dtoName : String)
    (dtoMap : List (String × DtoDef)) (d : Nat)
    (memo : List (String × SchemaNode))
    (hmemo : alookup memo dtoName = none)
    (hdto : alookup dtoMap dtoName = none) :
    buildSchemaForDtoF (n + 1) dtoName dtoMap d memo = some (objSchema, memo) := by
  simp only [buildSchemaForDtoF, hmemo, hdto]

/-! ### Termination of the NestJS schema resolver

Every recursive call either strictly shrinks the type node at the same
depth or increments the depth, and cross-DTO hops require `depth < 2`, so
a measure mixing the (capped) remaining depth budget with node sizes
decreases along every call. -/

mutual
def sizeT : TypeNode → Nat
  | .tsString => 1
  | .tsNumber => 1
  | .tsBoolean => 1
  | .tsOther => 1
  | .tsArray e => 1 + sizeT e
  | .tsRef _ ps => 1 + sizeTs ps
  | .tsLiteral ms => 1 + sizeMs ms

def sizeTs : List TypeNode → Nat
  | [] => 0
  | t :: r => 1 + sizeT t + sizeTs r

def sizeMs : List TSMember → Nat
  | [] => 0
  | m :: r => sizeM m + sizeMs r

def sizeM : TSMember → Nat
  | .propSig _ none => 1
  | .propSig _ (some t) => 1 + sizeT t
  | .otherMember => 1
end

def sizeOptT : Option TypeNode → Nat
  | none => 0
  | some t => sizeT t

@[simp] theorem sizeOptT_some (t : TypeNode) : sizeOptT (some t) = sizeT t := rfl

@[simp] theorem sizeOptT_none : sizeOptT none = 0 := rfl

def sizeDProps (props : List DtoProp) : Nat :=
  props.foldr (fun p acc => 1 + sizeOptT p.typeNode + acc) 0

def sizeDtoMap (m : List (String × DtoDef)) : Nat :=
  m.foldr (fun e acc => sizeDProps e.2.props + acc) 0

theorem sizeT_pos (t : TypeNode) : 1 ≤ sizeT t := by
  cases t <;> simp [sizeT]

theorem sizeOptT_headTs_le (ps : List TypeNode) : sizeOptT ps.head? ≤ sizeTs ps := by
  cases ps with
  | nil => simp
  | cons t r =>
    have h1 : sizeTs (t :: r) = 1 + sizeT t + sizeTs r := rfl
    rw [h1]
    simp only [List.head?, sizeOptT_some]
    omega

theorem sizeM_propSig (key : JsExpr) (tyAnn : Option TypeNode) :
    sizeM (.propSig key tyAnn) = 1 + sizeOptT tyAnn := by
  cases tyAnn <;> rfl

theorem sizeM_pos (m : TSMember) : 1 ≤ sizeM m := by
  cases m with
  | otherMember => exact Nat.le_refl 1
  | propSig key tyAnn => rw [sizeM_propSig]; omega

theorem sizeDProps_cons (prop : DtoProp) (rest : List DtoProp) :
    sizeDProps (prop :: rest) = 1 + sizeOptT prop.typeNode + sizeDProps rest := rfl

theorem dtoMap_lookup_size (dtoMap : List (String × DtoDef)) (name : String)
    (dto : DtoDef) (h : alookup dtoMap name = some dto) :
    sizeDProps dto.props ≤ sizeDtoMap dtoMap := by
  induction dtoMap with
  | nil => simp [alookup] at h
  | cons p rest ih =>
    obtain ⟨k, v⟩ := p
    have h1 : sizeDtoMap ((k, v) :: rest) = sizeDProps v.props + sizeDtoMap rest := rfl
    rw [h1]
    by_cases hk : k = name
    · have hv : some v = some dto := by simpa [alookup, hk] using h
      have hv2 : v = dto := by injection hv
      rw [← hv2]
      omega
    · have h2 : alookup rest name = some dto := by simpa [alookup, hk] using h
      have := ih h2
      omega

/-- Measure for a `schemaFromTypeNode` call. -/
def muNS (dtoMap : List (String × DtoDef)) (node? : Option TypeNode) (d : Nat) : Nat :=
  (4 - min d 4) * (sizeDtoMap dtoMap + 1) + sizeOptT node?

/-- Measure for the `TSTypeLiteral` member loop. -/
def muNM (dtoMap : List (String × DtoDef)) (ms : List TSMember) (d : Nat) : Nat :=
  (4 - min d 4) * (sizeDtoMap dtoMap + 1) + sizeMs ms

/-- Measure for a `buildSchemaForDto` call. -/
def muNB (dtoMap : List (String × DtoDef)) (d : Nat) : Nat :=
  (4 - min d 4) * (sizeDtoMap dtoMap + 1) + sizeDtoMap dtoMap + 1

/-- Measure for the `dto.props` loop. -/
def muNP (dtoMap : List (String × DtoDef)) (props : List DtoProp) (d : Nat) : Nat :=
  (4 - min d 4) * (sizeDtoMap dtoMap + 1) + sizeDProps props

theorem muStep {K d n X Y : Nat} (h : (4 - min d 4) * K + X < n + 1) (hY : Y < X) :
    (4 - min (d + 1) 4) * K + Y < n := by
  have hm : (4 - min (d + 1) 4) * K ≤ (4 - min d 4) * K :=
    Nat.mul_le_mul_right _ (by omega)
  generalize (4 - min (d + 1) 4) * K = A at hm ⊢
  generalize (4 - min d 4) * K = B at hm h
  omega

theorem muSame {K d n X Y : Nat} (h : (4 - min d 4) * K + X < n + 1) (hY : Y < X) :
    (4 - min d 4) * K + Y < n := by
  generalize (4 - min d 4) * K = B at h ⊢
  omega

theorem muBuildStep {S d n X : Nat} (hd : d < 2) (hX : 1 ≤ X)
    (h : (4 - min d 4) * (S + 1) + X < n + 1) :
    (4 - min (d + 1) 4) * (S + 1) + S + 1 < n := by
  have h1 : min d 4 = d := by omega
  have h2 : min (d + 1) 4 = d + 1 := by omega
  rw [h1] at h
  rw [h2]
  have h3 : 4 - d = (4 - (d + 1)) + 1 := by omega
  rw [h3, Nat.succ_mul] at h
  generalize (4 - (d + 1)) * (S + 1) = P at h ⊢
  omega

theorem nest_fuel_suffices : ∀ n : Nat,
    (∀ (dtoMap : List (String × DtoDef)) (node? : Option TypeNode) (d : Nat)
      (memo : List (String × SchemaNode)) (meta : PropMeta),
      muNS dtoMap node? d < n →
      (schemaFromTypeNodeF n node? dtoMap d memo meta).isSome = true) ∧
    (∀ (dtoMap : List (String × DtoDef)) (ms : List TSMember) (d : Nat)
      (memo acc : List (String × SchemaNode)),
      muNM dtoMap ms d < n →
      (literalMembersF n ms dtoMap d memo acc).isSome = true) ∧
    (∀ (dtoMap : List (String × DtoDef)) (name : String) (d : Nat)
      (memo : List (String × SchemaNode)),
      muNB dtoMap d < n →
      (buildSchemaForDtoF n name dtoMap d memo).isSome = true) ∧
    (∀ (dtoMap : List (String × DtoDef)) (props : List DtoProp) (d : Nat)
      (memo : List (String × SchemaNode)) (acc : List (String × SchemaNode) × List String),
      muNP dtoMap props d < n →
      (dtoPropsF n props dtoMap d memo acc).isSome = true) := by
  intro n
  induction n with
  | zero =>
    refine ⟨?_, ?_, ?_, ?_⟩ <;> { intros; omega }
  | succ n ih =>
    obtain ⟨ihS, ihM, ihB, ihP⟩ := ih
    refine ⟨?_, ?_, ?_, ?_⟩
    · intro dtoMap node? d memo meta hμ
      cases node? with
      | none =>
        simp only [schemaFromTypeNodeF]
        exact metaFallback_isSome meta memo
      | some t =>
        cases t with
        | tsString => simp [schemaFromTypeNodeF]
        | tsNumber => simp [schemaFromTypeNodeF]
        | tsBoolean => simp [schemaFromTypeNodeF]
        | tsOther =>
          simp only [schemaFromTypeNodeF]
          exact metaFallback_isSome meta memo
        | tsArray e =>
          have hrec : muNS dtoMap (some e) (d + 1) < n := by
            simp only [muNS, sizeOptT_some] at hμ ⊢
            refine muStep hμ ?_
            have h1 : sizeT (.tsArray e) = 1 + sizeT e := rfl
            omega
          have hs := ihS dtoMap (some e) (d + 1) memo {} hrec
          obtain ⟨⟨items, memo'⟩, hval⟩ := Option.isSome_iff_exists.mp hs
          simp only [schemaFromTypeNodeF]
          rw [hval]
          rfl
        | tsLiteral ms =>
          have hrec : muNM dtoMap ms (d + 1) < n := by
            simp only [muNS, muNM, sizeOptT_some] at hμ ⊢
            refine muStep hμ ?_
            have h1 : sizeT (.tsLiteral ms) = 1 + sizeMs ms := rfl
            omega
          have hs := ihM dtoMap ms (d + 1) memo [] hrec
          obtain ⟨⟨properties, memo'⟩, hval⟩ := Option.isSome_iff_exists.mp hs
          simp only [schemaFromTypeNodeF]
          rw [hval]
          rfl
        | tsRef name ps =>
          simp only [schemaFromTypeNodeF]
          by_cases hArr : name = "Array" ∧ ps.length = 1
          · rw [if_pos hArr]
            have hrec : muNS dtoMap ps.head? (d + 1) < n := by
              simp only [muNS, sizeOptT_some] at hμ ⊢
              refine muStep hμ ?_
              have h1 := sizeOptT_headTs_le ps
              have h2 : sizeT (.tsRef name ps) = 1 + sizeTs ps := rfl
              omega
            have hs := ihS dtoMap ps.head? (d + 1) memo {} hrec
            obtain ⟨⟨items, memo'⟩, hval⟩ := Option.isSome_iff_exists.mp hs
            rw [hval]
            rfl
          · rw [if_neg hArr]
            by_cases hB : ahas dtoMap name ∧ d < 2
            · rw [if_pos hB]
              have hrec : muNB dtoMap (d + 1) < n := by
                simp only [muNS, muNB, sizeOptT_some] at hμ ⊢
                exact muBuildStep hB.2 (sizeT_pos _) hμ
              exact ihB dtoMap name (d + 1) memo hrec
            · rw [if_neg hB]
              exact metaFallback_isSome meta memo
    · intro dtoMap ms d memo acc hμ
      cases ms with
      | nil => simp [literalMembersF]
      | cons m rest =>
        have htail : muNM dtoMap rest d < n := by
          simp only [muNM] at hμ ⊢
          refine muSame hμ ?_
          have h1 : sizeMs (m :: rest) = sizeM m + sizeMs rest := rfl
          have h2 := sizeM_pos m
          omega
        cases m with
        | otherMember =>
          simp only [literalMembersF]
          exact ihM dtoMap rest d memo acc htail
        | propSig key tyAnn =>
          simp only [literalMembersF]
          rcases hname : getPropertyNameJ key with _ | name
          · exact ihM dtoMap rest d memo acc htail
          · have hrec : muNS dtoMap tyAnn d < n := by
              simp only [muNS, muNM] at hμ ⊢
              refine muSame hμ ?_
              have h1 : sizeMs (TSMember.propSig key tyAnn :: rest)
                  = sizeM (.propSig key tyAnn) + sizeMs rest := rfl
              have h2 := sizeM_propSig key tyAnn
              omega
            have hs := ihS dtoMap tyAnn d memo {} hrec
            obtain ⟨⟨propSchema, memo'⟩, hval⟩ := Option.isSome_iff_exists.mp hs
            rw [hval]
            exact ihM dtoMap rest d memo' (aset acc name propSchema) htail
    · intro dtoMap name d memo hμ
      simp only [buildSchemaForDtoF]
      split
      · rfl
      · split
        · rfl
        · rename_i dto hdto
          have hsz := dtoMap_lookup_size dtoMap name dto hdto
          have hrec : muNP dtoMap dto.props d < n := by
            simp only [muNB, muNP] at hμ ⊢
            refine muSame (X := sizeDtoMap dtoMap + 1) hμ ?_
            omega
          have hs := ihP dtoMap dto.props d
            (aset memo name (.mk "object" (some []) none none none false)) ([], []) hrec
          obtain ⟨⟨⟨properties, required⟩, memo2⟩, hval⟩ := Option.isSome_iff_exists.mp hs
          rw [hval]
          rfl
    · intro dtoMap props d memo acc hμ
      cases props with
      | nil => simp [dtoPropsF]
      | cons prop rest =>
        simp only [dtoPropsF]
        have hrec : muNS dtoMap prop.typeNode (d + 1) < n := by
          simp only [muNS, muNP] at hμ ⊢
          refine muStep hμ ?_
          rw [sizeDProps_cons]
          omega
        have hs := ihS dtoMap prop.typeNode (d + 1) memo prop.toMeta hrec
        obtain ⟨⟨propSchema, memo'⟩, hval⟩ := Option.isSome_iff_exists.mp hs
        rw [hval]
        have htail : muNP dtoMap rest d < n := by
          simp only [muNP] at hμ ⊢
          refine muSame hμ ?_
          rw [sizeDProps_cons]
          omega
        exact ihP dtoMap rest d memo'
          (aset acc.1 prop.name propSchema,
            if prop.optional then acc.2 else acc.2 ++ [prop.name]) htail

/-- Termination of the NestJS DTO resolver: with fuel one past the measure,
`buildSchemaForDto` returns a result for every DTO map (cyclic ones
included), every name and every starting state. -/
theorem buildSchemaForDto_total (dtoMap : List (String × DtoDef)) (name : String)
    (d : Nat) (memo : List (String × SchemaNode)) :
    (buildSchemaForDtoF (muNB dtoMap d + 1) name dtoMap d memo).isSome = true :=
  (nest_fuel_suffices (muNB dtoMap d + 1)).2.2.1 dtoMap name d memo (Nat.lt_succ_self _)

/-! ### The reference model simulates the snapshot model

Branching in both models depends on the memo only through which *keys* it
holds, and both store under the same keys at the same points, so the two
models succeed and fail together; that transfers the termination bound to
the reference-faithful model. -/

/-- Two evaluation results agree modulo payload: both ran out of fuel, or
both produced a value, with memo/heap holding the same keys in the same
order. -/
def simRes {α β : Type} : Option (α × List (String × SchemaNode)) →
    Option (β × List (String × SchemaR)) → Prop
  | none, none => True
  | some a, some b => akeys a.2 = akeys b.2
  | _, _ => False

theorem alookup_isSome_congr {α β : Type} :
    ∀ (m1 : List (String × α)) (m2 : List (String × β)),
    akeys m1 = akeys m2 → ∀ k, (alookup m1 k).isSome = (alookup m2 k).isSome := by
  intro m1
  induction m1 with
  | nil =>
    intro m2 h k
    cases m2 with
    | nil => rfl
    | cons p t => simp [akeys] at h
  | cons p t ih =>
    intro m2 h k
    cases m2 with
    | nil => simp [akeys] at h
    | cons q t2 =>
      obtain ⟨k1, v1⟩ := p
      obtain ⟨k2, v2⟩ := q
      simp only [akeys, List.map_cons, List.cons.injEq] at h
      show (if k1 = k then some v1 else alookup t k).isSome
        = (if k2 = k then some v2 else alookup t2 k).isSome
      rw [h.1]
      by_cases hk : k2 = k
      · rw [if_pos hk, if_pos hk]
        rfl
      · rw [if_neg hk, if_neg hk]
        exact ih t2 h.2 k

theorem akeys_aset {α : Type} : ∀ (m : List (String × α)) (k : String) (v : α),
    akeys (aset m k v) = if (alookup m k).isSome then akeys m else akeys m ++ [k] := by
  intro m
  induction m with
  | nil => intro k v; simp [aset, akeys, alookup]
  | cons p t ih =>
    intro k v
    obtain ⟨k1, v1⟩ := p
    show akeys (if k1 = k then (k1, v) :: t else (k1, v1) :: aset t k v)
      = if (if k1 = k then some v1 else alookup t k).isSome then akeys ((k1, v1) :: t)
        else akeys ((k1, v1) :: t) ++ [k]
    by_cases hk : k1 = k
    · rw [if_pos hk, if_pos hk]
      simp [akeys]
    · rw [if_neg hk, if_neg hk]
      show k1 :: akeys (aset t k v) = _
      rw [ih k v]
      cases h2 : (alookup t k).isSome <;> simp [h2, akeys]

theorem akeys_aset_congr {α β : Type} (m1 : List (String × α)) (m2 : List (String × β))
    (k : String) (v1 : α) (v2 : β) (h : akeys m1 = akeys m2) :
    akeys (aset m1 k v1) = akeys (aset m2 k v2) := by
  rw [akeys_aset, akeys_aset, alookup_isSome_congr m1 m2 h k, h]

theorem simRes_metaFallback (meta : PropMeta) (mF : List (String × SchemaNode))
    (mR : List (String × SchemaR)) (h : akeys mF = akeys mR) :
    simRes (metaFallback meta mF) (metaFallbackR meta mR) := by
  unfold metaFallback metaFallbackR
  cases meta.overrideType <;> exact h

theorem simRes_isSome {α β : Type} {x : Option (α × List (String × SchemaNode))}
    {y : Option (β × List (String × SchemaR))} (h : simRes x y) :
    y.isSome = x.isSome := by
  cases x <;> cases y
  · rfl
  · exact h.elim
  · exact h.elim
  · rfl

theorem nest_sim : ∀ n : Nat,
    (∀ (node? : Option TypeNode) (dtoMap : List (String × DtoDef)) (d : Nat)
      (mF : List (String × SchemaNode)) (mR : List (String × SchemaR)) (meta : PropMeta),
      akeys mF = akeys mR →
      simRes (schemaFromTypeNodeF n node? dtoMap d mF meta)
        (schemaFromTypeNodeR n node? dtoMap d mR meta)) ∧
    (∀ (ms : List TSMember) (dtoMap : List (String × DtoDef)) (d : Nat)
      (mF : List (String × SchemaNode)) (mR : List (String × SchemaR))
      (accF : List (String × SchemaNode)) (accR : List (String × SchemaR)),
      akeys mF = akeys mR →
      simRes (literalMembersF n ms dtoMap d mF accF)
        (literalMembersR n ms dtoMap d mR accR)) ∧
    (∀ (name : String) (dtoMap : List (String × DtoDef)) (d : Nat)
      (mF : List (String × SchemaNode)) (mR : List (String × SchemaR)),
      akeys mF = akeys mR →
      simRes (buildSchemaForDtoF n name dtoMap d mF)
        (buildSchemaForDtoR n name dtoMap d mR)) ∧
    (∀ (props : List DtoProp) (dtoMap : List (String × DtoDef)) (d : Nat)
      (mF : List (String × SchemaNode)) (mR : List (String × SchemaR))
      (accF : List (String × SchemaNode) × List String)
      (accR : List (String × SchemaR) × List String),
      akeys mF = akeys mR →
      simRes (dtoPropsF n props dtoMap d mF accF)
        (dtoPropsR n props dtoMap d mR accR)) := by
  intro n
  induction n with
  | zero => exact ⟨fun _ _ _ _ _ _ _ => trivial, fun _ _ _ _ _ _ _ _ => trivial,
      fun _ _ _ _ _ _ => trivial, fun _ _ _ _ _ _ _ _ => trivial⟩
  | succ n ih =>
    obtain ⟨ihS, ihM, ihB, ihP⟩ := ih
    refine ⟨?_, ?_, ?_, ?_⟩
    · intro node? dtoMap d mF mR meta h
      cases node? with
      | none => exact simRes_metaFallback meta mF mR h
      | some t =>
        cases t with
        | tsString => exact h
        | tsNumber => exact h
        | tsBoolean => exact h
        | tsOther => exact simRes_metaFallback meta mF mR h
        | tsArray e =>
          have hsim := ihS (some e) dtoMap (d + 1) mF mR {} h
          simp only [schemaFromTypeNodeF, schemaFromTypeNodeR]
          rcases hF : schemaFromTypeNodeF n (some e) dtoMap (d + 1) mF {}
              with _ | ⟨pF, mF'⟩ <;>
            rcases hR : schemaFromTypeNodeR n (some e) dtoMap (d + 1) mR {}
              with _ | ⟨pR, mR'⟩ <;>
            rw [hF, hR] at hsim
          · exact trivial
          · exact hsim.elim
          · exact hsim.elim
          · exact hsim
        | tsLiteral ms =>
          have hsim := ihM ms dtoMap (d + 1) mF mR [] [] h
          simp only [schemaFromTypeNodeF, schemaFromTypeNodeR]
          rcases hF : literalMembersF n ms dtoMap (d + 1) mF []
              with _ | ⟨pF, mF'⟩ <;>
            rcases hR : literalMembersR n ms dtoMap (d + 1) mR []
              with _ | ⟨pR, mR'⟩ <;>
            rw [hF, hR] at hsim
          · exact trivial
          · exact hsim.elim
          · exact hsim.elim
          · exact hsim
        | tsRef name ps =>
          simp only [schemaFromTypeNodeF, schemaFromTypeNodeR]
          by_cases hArr : name = "Array" ∧ ps.length = 1
          · simp only [if_pos hArr]
            have hsim := ihS ps.head? dtoMap (d + 1) mF mR {} h
            rcases hF : schemaFromTypeNodeF n ps.head? dtoMap (d + 1) mF {}
                with _ | ⟨pF, mF'⟩ <;>
              rcases hR : schemaFromTypeNodeR n ps.head? dtoMap (d + 1) mR {}
                with _ | ⟨pR, mR'⟩ <;>
              rw [hF, hR] at hsim
            · exact trivial
            · exact hsim.elim
            · exact hsim.elim
            · exact hsim
          · simp only [if_neg hArr]
            by_cases hB : ahas dtoMap name ∧ d < 2
            · simp only [if_pos hB]
              exact ihB name dtoMap (d + 1) mF mR h
            · simp only [if_neg hB]
              exact simRes_metaFallback meta mF mR h
    · intro ms dtoMap d mF mR accF accR h
      cases ms with
      | nil => exact h
      | cons m rest =>
        cases m with
        | otherMember =>
          simp only [literalMembersF, literalMembersR]
          exact ihM rest dtoMap d mF mR accF accR h
        | propSig key tyAnn =>
          simp only [literalMembersF, literalMembersR]
          rcases hname : getPropertyNameJ key with _ | name
          · exact ihM rest dtoMap d mF mR accF accR h
          · have hsim := ihS tyAnn dtoMap d mF mR {} h
            rcases hF : schemaFromTypeNodeF n tyAnn dtoMap d mF {}
                with _ | ⟨pF, mF'⟩ <;>
              rcases hR : schemaFromTypeNodeR n tyAnn dtoMap d mR {}
                with _ | ⟨pR, mR'⟩ <;>
              rw [hF, hR] at hsim
            · exact trivial
            · exact hsim.elim
            · exact hsim.elim
            · exact ihM rest dtoMap d mF' mR' (aset accF name pF) (aset accR name pR) hsim
    · intro name dtoMap d mF mR h
      have hhas := alookup_isSome_congr mF mR h name
      rcases hmF : alookup mF name with _ | sF <;>
        rcases hmR : alookup mR name with _ | sR
      · rcases hd : alookup dtoMap name with _ | dto
        · simp only [buildSchemaForDtoF, buildSchemaForDtoR, hmF, hmR, hd]
          exact h
        · have h1 : akeys (aset mF name (SchemaNode.mk "object" (some []) none none none false))
              = akeys (aset mR name (SchemaR.mk "object" (some []) none none none false)) :=
            akeys_aset_congr mF mR name _ _ h
          have hsim := ihP dto.props dtoMap d
            (aset mF name (SchemaNode.mk "object" (some []) none none none false))
            (aset mR name (SchemaR.mk "object" (some []) none none none false))
            ([], []) ([], []) h1
          rcases hF : dtoPropsF n dto.props dtoMap d
              (aset mF name (SchemaNode.mk "object" (some []) none none none false)) ([], [])
              with _ | ⟨⟨propsF, reqF⟩, m2F⟩ <;>
            rcases hR : dtoPropsR n dto.props dtoMap d
              (aset mR name (SchemaR.mk "object" (some []) none none none false)) ([], [])
              with _ | ⟨⟨propsR, reqR⟩, m2R⟩ <;>
            rw [hF, hR] at hsim <;>
            simp only [buildSchemaForDtoF, buildSchemaForDtoR, hmF, hmR, hd, hF, hR]
          · exact trivial
          · exact hsim.elim
          · exact hsim.elim
          · exact akeys_aset_congr m2F m2R name _ _ hsim
      · rw [hmF, hmR] at hhas
        simp at hhas
      · rw [hmF, hmR] at hhas
        simp at hhas
      · simp only [buildSchemaForDtoF, buildSchemaForDtoR, hmF, hmR]
        exact h
    · intro props dtoMap d mF mR accF accR h
      cases props with
      | nil => exact h
      | cons prop rest =>
        simp only [dtoPropsF, dtoPropsR]
        have hsim := ihS prop.typeNode dtoMap (d + 1) mF mR prop.toMeta h
        rcases hF : schemaFromTypeNodeF n prop.typeNode dtoMap (d + 1) mF prop.toMeta
            with _ | ⟨pF, mF'⟩ <;>
          rcases hR : schemaFromTypeNodeR n prop.typeNode dtoMap (d + 1) mR prop.toMeta
            with _ | ⟨pR, mR'⟩ <;>
          rw [hF, hR] at hsim
        · exact trivial
        · exact hsim.elim
        · exact hsim.elim
        · exact ihP rest dtoMap d mF' mR'
            (aset accF.1 prop.name pF,
              if prop.optional then accF.2 else accF.2 ++ [prop.name])
            (aset accR.1 prop.name pR,
              if prop.optional then accR.2 else accR.2 ++ [prop.name]) hsim

theorem akeys_map_obj (heap : List (String × SchemaR)) :
    akeys (heap.map (fun p => (p.1, objSchema))) = akeys heap := by
  simp only [akeys, List.map_map]
  rfl

/-- Termination transfers to the reference-faithful model: fuel one past
the measure always yields a result, for every heap. -/
theorem buildSchemaForDtoR_total (dtoMap : List (String × DtoDef)) (name : String)
    (d : Nat) (heap : List (String × SchemaR)) :
    (buildSchemaForDtoR (muNB dtoMap d + 1) name dtoMap d heap).isSome = true := by
  have hsim := (nest_sim (muNB dtoMap d + 1)).2.2.1 name dtoMap d
    (heap.map (fun p => (p.1, objSchema))) heap (akeys_map_obj heap)
  rw [simRes_isSome hsim]
  exact buildSchemaForDto_total dtoMap name d _

/-! ### Concrete cyclic inputs -/

/-- Two DTO classes referencing each other: `A { b: B }`, `B { a: A }`. -/
def cyclicDtoMap : List (String × DtoDef) :=
  [("A", ⟨"A", [⟨"b", false, some (.tsRef "B" []), none, none⟩]⟩),
   ("B", ⟨"B", [⟨"a", false, some (.tsRef "A" []), none, none⟩]⟩)]

/-- The schema the resolver produces for `B` of `cyclicDtoMap`: the back
reference to `A` is past the depth cap and degrades to a plain object. -/
def cyclicSchemaB : SchemaNode :=
  .mk "object" (some [("a", objSchema)]) (some ["a"]) none none false

/-- The schema the resolver produces for `A` of `cyclicDtoMap`. -/
def cyclicSchemaA : SchemaNode :=
  .mk "object" (some [("b", cyclicSchemaB)]) (some ["b"]) none none false

/-- The heap cell the resolver builds for `A` of `cyclicDtoMap`: `b`
holds the (by then finished) cell of `B`. -/
def cycCellA : SchemaR :=
  .mk "object" (some [("b", .ref "B")]) (some ["b"]) none none false

/-- The heap cell for `B` of `cyclicDtoMap`: the back reference to `A`
is past the depth cap, so it degrades to a plain object value. -/
def cycCellB : SchemaR :=
  .mk "object" (some [("a", objSchemaR)]) (some ["a"]) none none false

/-- The final heap for `cyclicDtoMap` (insertion order `A` then `B`). -/
def cycHeapR : List (String × SchemaR) := [("A", cycCellA), ("B", cycCellB)]

/-- A DTO class referencing itself directly: `A { a: A }`. -/
def selfDtoMap : List (String × DtoDef) :=
  [("A", ⟨"A", [⟨"a", false, some (.tsRef "A" []), none, none⟩]⟩)]

/-- The heap cell the resolver builds for `A` of `selfDtoMap`: property
`a` holds a reference back to the cell itself — a circular object. -/
def selfCellA : SchemaR :=
  .mk "object" (some [("a", .ref "A")]) (some ["a"]) none none false

/-- The final heap for `selfDtoMap`. -/
def selfHeapA : List (String × SchemaR) := [("A", selfCellA)]

/-- The circular self-reference heap admits no finite read-back: every
fuel fails on the cell of `A` and on the reference to it. -/
theorem selfHeap_noderef : ∀ n : Nat,
    derefSchemaF n selfHeapA (.ref "A") = none ∧
    derefSchemaF n selfHeapA selfCellA = none := by
  intro n
  induction n using Nat.strong_induction_on with
  | _ n ih =>
    rcases n with _ | m
    · exact ⟨rfl, rfl⟩
    · constructor
      · have e : derefSchemaF (m + 1) selfHeapA (.ref "A")
            = derefSchemaF m selfHeapA selfCellA := rfl
        rw [e]
        exact (ih m (Nat.lt_succ_self m)).2
      · rcases m with _ | i
        · rfl
        · rcases i with _ | j
          · rfl
          · have hj := (ih j (by omega)).1
            have h1 : derefPropsF (j + 1) selfHeapA [("a", SchemaR.ref "A")] = none := by
              simp only [derefPropsF, hj]
            have h2 : derefOptPropsF (j + 1 + 1) selfHeapA
                (some [("a", SchemaR.ref "A")]) = none := by
              simp only [derefOptPropsF, h1]
            have e3 : derefSchemaF (j + 1 + 1 + 1) selfHeapA selfCellA
                = match derefOptPropsF (j + 1 + 1) selfHeapA
                    (some [("a", SchemaR.ref "A")]) with
                  | none => none
                  | some props' =>
                    match derefOptSchemaF (j + 1 + 1) selfHeapA none with
                    | none => none
                    | some items' =>
                      some (.mk "object" props' (some ["a"]) items' none false) := rfl
            rw [e3, h2]

/-- `const a = z.object({ x: b }); const b = z.object({ y: a })`:
a cyclic chain of schema-builder variable bindings. -/
def zodCycDefs : List (String × JsExpr) :=
  [("a", .callM (.identL "z") (some "object") [.objL [.objProp (.identL "x") (.identL "b")]]),
   ("b", .callM (.identL "z") (some "object") [.objL [.objProp (.identL "y") (.identL "a")]])]

/-- A one-key required object schema, as the zod resolver builds them. -/
def zobj (k : String) (v : SchemaNode) : SchemaNode :=
  .mk "object" (some [(k, v)]) (some [k]) none none false

/-- C4 (amended): schema resolution always terminates — `buildSchemaForDto`
in the reference-faithful heap model for every DTO map (cyclic ones
included) and `resolveZodSchema` for every binding map (cyclic chains
included), each with fuel one past its measure — and `resolveZodSchema`
by construction yields plain finite `SchemaNode` values; on the concrete
two-class DTO cycle the heap result reads back as the finite schema
`cyclicSchemaA`, but on a directly self-referential DTO the returned
object is circular — its property `a` is a reference back to the schema
cell itself — and no read-back fuel unfolds it to a finite `SchemaNode`. -/
theorem schema_resolution_terminates :
    (∀ (dtoMap : List (String × DtoDef)) (name : String) (d : Nat)
      (heap : List (String × SchemaR)),
      (buildSchemaForDtoR (muNB dtoMap d + 1) name dtoMap d heap).isSome = true) ∧
    (∀ (defs : List (String × JsExpr)) (node? : Option JsExpr) (depth : Nat),
      (resolveZodSchemaF (muZ defs node? depth + 1) node? defs depth).isSome = true) ∧
    buildSchemaForDtoR 100 "A" cyclicDtoMap 0 [] = some (.ref "A", cycHeapR) ∧
    derefSchemaF 20 cycHeapR (.ref "A") = some cyclicSchemaA ∧
    resolveZodSchemaF 50 (some (.identL "a")) zodCycDefs 0 =
      some (zobj "x" (zobj "y" (zobj "x" (zobj "y" (zobj "x" strSchema))))) ∧
    buildSchemaForDtoR 100 "A" selfDtoMap 0 [] = some (.ref "A", selfHeapA) ∧
    (∀ n : Nat, derefSchemaF n selfHeapA (.ref "A") = none) :=
  ⟨buildSchemaForDtoR_total, resolveZod_total, rfl, rfl, rfl, rfl,
    fun n => (selfHeap_noderef n).1⟩

/-- C4 counterexample: on the directly self-referential DTO `A { a: A }`
(explicitly within the claim's scope) the resolver terminates but the
returned value is the memoized cell for `A`, whose property `a` refers
back to that very cell — a circular object, not a finite well-formed
`SchemaNode`: read-back fails for every fuel. -/
theorem buildSchemaForDto_self_cycle_circular :
    buildSchemaForDtoR 100 "A" selfDtoMap 0 [] = some (.ref "A", selfHeapA) ∧
    alookup selfHeapA "A" =
      some (.mk "object" (some [("a", .ref "A")]) (some ["a"]) none none false) ∧
    (∀ n : Nat, derefSchemaF n selfHeapA (.ref "A") = none) :=
  ⟨rfl, rfl, fun n => (selfHeap_noderef n).1⟩

/-- C3 counterexample: an 11-deep `z.array` chain exceeds the depth cap,
and the innermost schema at the cap is a string schema, not an object
schema with no properties. -/
theorem zod_cap_is_string_not_object :
    resolveZodSchemaF 12 (some (mkDeepArray 11)) [] 0 = some (wrapArray 11 strSchema) ∧
    itemsAt 11 (wrapArray 11 strSchema) = some strSchema ∧
    strSchema.ty ≠ "object" :=
  ⟨rfl, rfl, by decide⟩

/-- C3 (amended): resolution is bounded by a depth cap — depth 2 for
inline type references, depth 10 for schema-builder chains — and never
errs or diverges there; past the inline-reference cap the result carries
no properties: it is the decorator override type when the property has a
type-override decorator, else an `object` schema with no properties;
past the builder-chain cap the result is a `string` schema (as the
concrete 11-deep array chain shows). -/
theorem schema_depth_caps :
    (∀ (n : Nat) (dtoMap : List (String × DtoDef)) (name : String)
      (typeParams : List TypeNode) (d : Nat) (memo : List (String × SchemaNode))
      (meta : PropMeta),
      2 ≤ d → ¬ (name = "Array" ∧ typeParams.length = 1) →
      schemaFromTypeNodeF (n + 1) (some (.tsRef name typeParams)) dtoMap d memo meta =
        some (.mk (meta.overrideType.getD "object") none none none meta.exampleV false,
          memo)) ∧
    (∀ (n : Nat) (node : JsExpr) (defs : List (String × JsExpr)) (d : Nat),
      10 < d → resolveZodSchemaF (n + 1) (some node) defs d = some strSchema) ∧
    resolveZodSchemaF 12 (some (mkDeepArray 11)) [] 0 = some (wrapArray 11 strSchema) := by
  refine ⟨?_, ?_, rfl⟩
  · intro n dtoMap name typeParams d memo meta hd hn
    exact schemaFromTypeNode_past_cap n dtoMap name typeParams d memo meta hd hn
  · intro n node defs d hd
    exact resolveZod_past_cap n node defs d hd

/-- Witness for C3 (amended) at concrete inputs: past the inline cap both
without and with a type-override decorator, and past the zod cap. -/
theorem schema_depth_caps_witness :
    schemaFromTypeNodeF 1 (some (.tsRef "Foo" [])) [] 2 [] {} =
        some (.mk "object" none none none none false, []) ∧
    schemaFromTypeNodeF 1 (some (.tsRef "Foo" [])) [] 2 []
        { overrideType := some "string" } =
        some (.mk "string" none none none none false, []) ∧
    resolveZodSchemaF 1 (some (.identL "w")) [] 11 = some strSchema := by
  refine ⟨?_, ?_, ?_⟩
  · exact schema_depth_caps.1 0 [] "Foo" [] 2 [] {} (by omega) (by decide)
  · exact schema_depth_caps.1 0 [] "Foo" [] 2 [] { overrideType := some "string" }
      (by omega) (by decide)
  · exact schema_depth_caps.2.1 0 (.identL "w") [] 11 (by omega)

/-! ### The decorator-controller scenario (claim C9) -/

/-- File `users.controller.ts` of the scenario: a controller with base
path `users`, one `@Get(':id')` method whose single parameter is
`@Query() query: SearchDto`. -/
def usersControllerClass : ClassDecl :=
  { idName := some "UsersController"
    decorators := [⟨.callI "Controller" [.strL "users"]⟩]
    body := [
      .classMethod
        [⟨.callI "Get" [.strL ":id"]⟩]
        [{ decorators := some [⟨.callI "Query" []⟩]
           typeAnn := some (.tsRef "SearchDto" [])
           left := none }]] }

/-- The `SearchDto` class of the scenario: `name: string` (required) and
`age?: number` (optional). -/
def searchDtoClass : ClassDecl :=
  { idName := some "SearchDto"
    decorators := []
    body := [
      .classProperty (.identL "name") false [] (some .tsString) none,
      .classProperty (.identL "age") true [] (some .tsNumber) none] }

/-- C9: the scenario file yields exactly one endpoint — `GET /users/:id`
with query parameters `name` (required) then `age` (optional), in that
order. -/
theorem nest_controller_scenario :
    extractNestJsEndpointsF 100 "users.controller.ts"
        [usersControllerClass, searchDtoClass] =
      some [{ method := "GET"
              path := "/users/:id"
              description := "GET /users/:id"
              tags := none
              paramsPath := none
              paramsQuery := some [⟨"name", true⟩, ⟨"age", false⟩]
              paramsBody := none
              filePath := "users.controller.ts"
              key := "GET /users/:id" }] := by
  rfl

/-! ## Hono router-graph resolver (`src/extract/hono.js`)

The claims about this extractor concern the cross-file graph phase
(lines 391-520), which consumes the per-file records `parseHonoFile`
produces.  `FileData` is exactly that record shape; the Babel traversal
that builds it from a syntax tree is not modelled.  The BFS `while` loop
is embedded as a step function iterated a given number of times; the run
is complete when the queue is empty. -/

/-- One raw route fact of `parseHonoFile`'s `endpoints` array; the
optional `parameters` object is flattened into `body`/`query`. -/
structure HEndpoint where
  routerVar : String
  method : String
  path : String
  description : String
  body : Option SchemaNode := none
  query : Option (List NamedReq) := none

/-- One `routers` entry (`{ basePath }`). -/
structure HRouterMeta where
  basePath : String

/-- One `imports` entry. -/
structure HImport where
  sourceFile : String
  importName : String
  isDefault : Bool

/-- One `mounts` entry (`router.route(prefix, child)`). -/
structure HMount where
  parentVar : String
  childIdent : String
  pfx : String

/-- The per-file record `parseHonoFile` returns (line 388). -/
structure FileData where
  filePath : String
  routers : List (String × HRouterMeta)
  endpoints : List HEndpoint
  mounts : List HMount
  exportsDefault : Option String
  exportsNamed : List (String × String)
  imports : List (String × HImport)

/-- `routerId` (lines 391-393). -/
def routerId (filePath varName : String) : String :=
  filePath ++ "::" ++ varName

/-- One entry of the global router index. -/
structure RouterInfo where
  filePath : String
  varName : String
  basePath : String

/-- `buildRouterIndex` (lines 395-409). -/
def buildRouterIndex (files : List FileData) : List (String × RouterInfo) :=
  files.foldl
    (fun routers data =>
      data.routers.foldl
        (fun routers rv =>
          aset routers (routerId data.filePath rv.1) ⟨data.filePath, rv.1, rv.2.basePath⟩)
        routers)
    []

/-- The `fileDataMap` keyed by file path (the parse loop of lines 440-448;
parse failures simply leave a file out of the input list). -/
def fileDataMapOf (files : List FileData) : List (String × FileData) :=
  files.foldl (fun m d => aset m d.filePath d) []

/-- `resolveChildRouterId` (lines 411-429). -/
def resolveChildRouterId (childIdent : String) (data : FileData)
    (fileDataMap : List (String × FileData)) : Option String :=
  if (alookup data.routers childIdent).isSome then
    some (routerId data.filePath childIdent)
  else
    match alookup data.imports childIdent with
    | some imp =>
      match alookup fileDataMap imp.sourceFile with
      | none => none
      | some target =>
        if imp.isDefault then
          match target.exportsDefault with
          | some d => some (routerId target.filePath d)
          | none => none
        else
          match alookup target.exportsNamed imp.importName with
          | some mapped => some (routerId target.filePath mapped)
          | none => none
    | none => none

/-- One resolved mount edge. -/
structure HEdge where
  childId : String
  pfx : String

/-- The `endpointsByRouter` grouping (lines 455-459). -/
def endpointsByRouterOf (files : List FileData) : List (String × List HEndpoint) :=
  files.foldl
    (fun m data =>
      data.endpoints.foldl
        (fun m ep =>
          let id := routerId data.filePath ep.routerVar
          match alookup m id with
          | some l => aset m id (l ++ [ep])
          | none => aset m id [ep])
        m)
    []

/-- The `edges` map and `childHasParent` set (lines 452-469). -/
def edgesAndParents (files : List FileData) (fdm : List (String × FileData)) :
    List (String × List HEdge) × List String :=
  files.foldl
    (fun acc data =>
      data.mounts.foldl
        (fun acc mount =>
          let parentId := routerId data.filePath mount.parentVar
          match resolveChildRouterId mount.childIdent data fdm with
          | none => acc
          | some childId =>
            let edges :=
              match alookup acc.1 parentId with
              | some l => aset acc.1 parentId (l ++ [⟨childId, mount.pfx⟩])
              | none => aset acc.1 parentId [⟨childId, mount.pfx⟩]
            (edges, if acc.2.contains childId then acc.2 else acc.2 ++ [childId]))
        acc)
    ([], [])

/-- `addPrefix` (lines 431-437): record a prefix for a router unless that
exact string is already present; the `Bool` is JS's return value. -/
def addPfx (pm : List (String × List String)) (id pfx : String) :
    List (String × List String) × Bool :=
  let set := (alookup pm id).getD []
  if set.contains pfx then (pm, false)
  else (aset pm id (set ++ [pfx]), true)

/-- The BFS state: `prefixesByRouter` plus the work queue of
`(routerId, prefix)` pairs. -/
structure BfsState where
  pm : List (String × List String)
  queue : List (String × String)

/-- The root-candidate selection of lines 474-476: routers with no
incoming resolved mount edge; all routers when there are none. -/
def startSet (routerIds : List String) (childHasParent : List String) : List String :=
  let roots := routerIds.filter (fun id => ¬ childHasParent.contains id)
  if roots.length ≠ 0 then roots else routerIds

/-- The queue-seeding loop of lines 478-483. -/
def bfsInit (routers : List (String × RouterInfo)) (childHasParent : List String) :
    BfsState :=
  (startSet (akeys routers) childHasParent).foldl
    (fun st id =>
      let r := addPfx st.pm id ""
      if r.2 then { pm := r.1, queue := st.queue ++ [(id, "")] }
      else { st with pm := r.1 })
    ⟨[], []⟩

/-- The `for (const edge of children)` loop of lines 491-496. -/
def bfsChildren (effective : String) (st : BfsState) (children : List HEdge) : BfsState :=
  children.foldl
    (fun st2 edge =>
      let childPfx := joinPaths effective edge.pfx
      let r := addPfx st2.pm edge.childId childPfx
      if r.2 then { pm := r.1, queue := st2.queue ++ [(edge.childId, childPfx)] }
      else { st2 with pm := r.1 })
    st

/-- One iteration of the BFS `while` loop (lines 485-497). -/
def bfsStep (routers : List (String × RouterInfo)) (edges : List (String × List HEdge))
    (st : BfsState) : BfsState :=
  match st.queue with
  | [] => st
  | (id, pfx) :: rest =>
    match alookup routers id with
    | none => { st with queue := rest }
    | some router =>
      bfsChildren (joinPaths pfx router.basePath) { st with queue := rest }
        ((alookup edges id).getD [])

/-- Iterate the BFS loop at most `fuel` times (the JS loop has no bound). -/
def bfsRun (routers : List (String × RouterInfo)) (edges : List (String × List HEdge)) :
    Nat → BfsState → BfsState
  | 0, st => st
  | Nat.succ n, st =>
    if st.queue = [] then st else bfsRun routers edges n (bfsStep routers edges st)

/-- A final Hono endpoint record (lines 507-514). -/
structure REndpoint where
  method : String
  path : String
  description : String
  body : Option SchemaNode
  query : Option (List NamedReq)
  filePath : Option String
  key : String

/-- The result-assembly loop (lines 499-517): each router's routes are
emitted once per recorded prefix, defaulting to the single empty prefix
when the traversal recorded none. -/
def aggregateHono (routers : List (String × RouterInfo))
    (epsByRouter : List (String × List HEndpoint))
    (pm : List (String × List String)) : List REndpoint :=
  epsByRouter.foldl
    (fun results entry =>
      let router? := alookup routers entry.1
      let pfxs := (alookup pm entry.1).getD [""]
      pfxs.foldl
        (fun results pfx =>
          let effective := joinPaths pfx
            (match router? with | some r => r.basePath | none => "")
          entry.2.foldl
            (fun results ep =>
              let fullPath := normalizePath (joinPaths effective ep.path)
              results ++ [{
                method := ep.method
                path := fullPath
                description :=
                  if ep.description ≠ "" then ep.description
                  else ep.method ++ " " ++ fullPath
                body := ep.body
                query := ep.query
                filePath := match router? with | some r => some r.filePath | none => none
                key := toKey ep.method fullPath }])
            results)
        results)
    []

/-- The BFS state the run reaches from the seeded queue after `fuel`
iterations. -/
def honoBfsFinal (files : List FileData) (fuel : Nat) : BfsState :=
  let routers := buildRouterIndex files
  let fdm := fileDataMapOf files
  let ep := edgesAndParents files fdm
  bfsRun routers ep.1 fuel (bfsInit routers ep.2)

/-- Whether the BFS loop of `extractHonoEndpoints` finishes on the given
input (the JS loop runs until the queue is empty). -/
def honoBfsTerminates (files : List FileData) : Prop :=
  ∃ n, (honoBfsFinal files n).queue = []

/-- `extractHonoEndpoints` (lines 439-520) from parsed file data: `none`
when the BFS did not drain its queue within `fuel` iterations. -/
def extractHonoEndpointsF (fuel : Nat) (files : List FileData) :
    Option (List REndpoint) :=
  let routers := buildRouterIndex files
  let eps := endpointsByRouterOf files
  let stF := honoBfsFinal files fuel
  if stF.queue = [] then some (aggregateHono routers eps stF.pm) else none

/-! ### Concrete router-graph scenarios -/

/-- File `F1` of the C1 scenario: routers `A` and `B`, `B` mounted on `A`
under `/v1`, `B` declaring `GET /ping`, `B` exported by name. -/
def honoFileF1 : FileData :=
  { filePath := "F1"
    routers := [("A", ⟨""⟩), ("B", ⟨""⟩)]
    endpoints := [{ routerVar := "B", method := "GET", path := "/ping",
                    description := "GET /ping" }]
    mounts := [{ parentVar := "A", childIdent := "B", pfx := "/v1" }]
    exportsDefault := none
    exportsNamed := [("B", "B")]
    imports := [] }

/-- File `F2` of the C1 scenario: its own router `R`, importing `B` from
`F1` and mounting it under `/legacy`. -/
def honoFileF2 : FileData :=
  { filePath := "F2"
    routers := [("R", ⟨""⟩)]
    endpoints := []
    mounts := [{ parentVar := "R", childIdent := "B", pfx := "/legacy" }]
    exportsDefault := none
    exportsNamed := []
    imports := [("B", ⟨"F1", "B", false⟩)] }

/-- Diamond mount graph: two roots `r1`, `r2` both mounting the same child
`c` under the same literal prefix `/api`; `c` declares `GET /z`. -/
def diamondFile : FileData :=
  { filePath := "D"
    routers := [("r1", ⟨""⟩), ("r2", ⟨""⟩), ("c", ⟨""⟩)]
    endpoints := [{ routerVar := "c", method := "GET", path := "/z",
                    description := "GET /z" }]
    mounts := [{ parentVar := "r1", childIdent := "c", pfx := "/api" },
               { parentVar := "r2", childIdent := "c", pfx := "/api" }]
    exportsDefault := none
    exportsNamed := []
    imports := [] }

/-- Routers `a` and `b` mounted in a cycle (so neither is a root and the
traversal, started from the lone root `c`, never reaches them), with a
route declared on `a`. -/
def unreachedCycleFile : FileData :=
  { filePath := "U"
    routers := [("a", ⟨""⟩), ("b", ⟨""⟩), ("c", ⟨""⟩)]
    endpoints := [{ routerVar := "a", method := "GET", path := "/ping",
                    description := "GET /ping" }]
    mounts := [{ parentVar := "a", childIdent := "b", pfx := "/x" },
               { parentVar := "b", childIdent := "a", pfx := "/y" }]
    exportsDefault := none
    exportsNamed := []
    imports := [] }

/-- A single router mounted on itself under `/x`: a pure cycle. -/
def selfLoopFile : FileData :=
  { filePath := "S"
    routers := [("s", ⟨""⟩)]
    endpoints := []
    mounts := [{ parentVar := "s", childIdent := "s", pfx := "/x" }]
    exportsDefault := none
    exportsNamed := []
    imports := [] }

/-- C1: with `B` mounted on `A` at `/v1` inside `F1` and re-mounted at
`/legacy` by `F2`, `B`'s single `GET /ping` route yields exactly the two
endpoints `GET /v1/ping` and `GET /legacy/ping`. -/
theorem hono_cross_file_mounts :
    extractHonoEndpointsF 10 [honoFileF1, honoFileF2] =
      some [{ method := "GET", path := "/v1/ping", description := "GET /ping",
              body := none, query := none, filePath := some "F1",
              key := "GET /v1/ping" },
            { method := "GET", path := "/legacy/ping", description := "GET /ping",
              body := none, query := none, filePath := some "F1",
              key := "GET /legacy/ping" }] := by
  rfl

/-! ### The BFS never records a (router, prefix) pair twice (claim C2) -/

/-- Every prefix list in `prefixesByRouter` is duplicate-free. -/
def PmNodup (pm : List (String × List String)) : Prop :=
  ∀ id l, alookup pm id = some l → l.Nodup

theorem contains_iff_mem (l : List String) (a : String) :
    l.contains a = true ↔ a ∈ l :=
  List.elem_iff

theorem addPfx_preserves_nodup (pm : List (String × List String)) (id p : String)
    (h : PmNodup pm) : PmNodup (addPfx pm id p).1 := by
  unfold addPfx
  by_cases hc : ((alookup pm id).getD []).contains p = true
  · rw [if_pos hc]
    exact h
  · rw [if_neg hc]
    intro id2 l hl
    rw [alookup_aset] at hl
    by_cases hid : id = id2
    · rw [if_pos hid] at hl
      have hl2 : (alookup pm id).getD [] ++ [p] = l := by injection hl
      rw [← hl2]
      rw [List.nodup_append]
      refine ⟨?_, List.nodup_singleton p, ?_⟩
      · rcases halo : alookup pm id with _ | s
        · exact List.nodup_nil
        · exact h id s halo
      · intro a ha hap
        have hap2 : a = p := by simpa using hap
        exact hc ((contains_iff_mem _ p).mpr (hap2 ▸ ha))
    · rw [if_neg hid] at hl
      exact h id2 l hl

/-- Both `addPrefix`-and-push branches leave a duplicate-free prefix map. -/
theorem pm_of_add_branch (pm0 : List (String × List String)) (cid cpfx : String)
    (q1 q2 : List (String × String)) (h : PmNodup pm0) :
    PmNodup ((if (addPfx pm0 cid cpfx).2 = true then
        (⟨(addPfx pm0 cid cpfx).1, q1⟩ : BfsState)
      else ⟨(addPfx pm0 cid cpfx).1, q2⟩) : BfsState).pm := by
  split <;> exact addPfx_preserves_nodup _ _ _ h

theorem bfsInit_nodup (routers : List (String × RouterInfo))
    (chp : List String) : PmNodup (bfsInit routers chp).pm := by
  unfold bfsInit
  have hbase : PmNodup (⟨[], []⟩ : BfsState).pm := by
    intro id l hl
    simp [alookup] at hl
  generalize startSet (akeys routers) chp = ids
  generalize hst : (⟨[], []⟩ : BfsState) = st0
  rw [hst] at hbase
  clear hst
  induction ids generalizing st0 with
  | nil => exact hbase
  | cons x r ih =>
    simp only [List.foldl_cons]
    apply ih
    exact pm_of_add_branch st0.pm x "" _ _ hbase

theorem bfsChildren_nodup (effective : String) :
    ∀ (children : List HEdge) (st2 : BfsState), PmNodup st2.pm →
    PmNodup (bfsChildren effective st2 children).pm := by
  intro children
  induction children with
  | nil => intro st2 h; exact h
  | cons e r ih =>
    intro st2 h
    show PmNodup (bfsChildren effective _ r).pm
    apply ih
    exact pm_of_add_branch st2.pm e.childId _ _ _ h

theorem bfsStep_nodup (routers : List (String × RouterInfo))
    (edges : List (String × List HEdge)) (st : BfsState)
    (h : PmNodup st.pm) : PmNodup (bfsStep routers edges st).pm := by
  obtain ⟨pm0, queue0⟩ := st
  cases queue0 with
  | nil => exact h
  | cons hd rest =>
    obtain ⟨id, pfx⟩ := hd
    simp only [bfsStep]
    rcases hr : alookup routers id with _ | router
    · exact h
    · exact bfsChildren_nodup _ _ ⟨pm0, rest⟩ h

theorem bfsRun_nodup (routers : List (String × RouterInfo))
    (edges : List (String × List HEdge)) :
    ∀ (fuel : Nat) (st : BfsState), PmNodup st.pm →
    PmNodup (bfsRun routers edges fuel st).pm := by
  intro fuel
  induction fuel with
  | zero => intro st h; exact h
  | succ n ih =>
    intro st h
    unfold bfsRun
    by_cases hq : st.queue = []
    · rw [if_pos hq]; exact h
    · rw [if_neg hq]
      exact ih _ (bfsStep_nodup routers edges st h)

/-- C2: the BFS records each prefix string at most once per router node —
every per-router prefix list is duplicate-free at every point of every
run — and in the diamond graph (two roots mounting the same child under
the same literal prefix) the child route `GET /api/z` is emitted exactly
once. -/
theorem bfs_never_revisits :
    (∀ (files : List FileData) (fuel : Nat) (id : String) (l : List String),
      alookup (honoBfsFinal files fuel).pm id = some l → l.Nodup) ∧
    (extractHonoEndpointsF 10 [diamondFile]).map
        (fun res => res.countP (fun e => e.key == "GET /api/z")) = some 1 := by
  constructor
  · intro files fuel id l hl
    exact bfsRun_nodup _ _ fuel _ (bfsInit_nodup _ _) id l hl
  · rfl

/-- Witness for C2 at the diamond graph. -/
theorem bfs_never_revisits_witness :
    alookup (honoBfsFinal [diamondFile] 10).pm "D::c" = some ["/api"] ∧
    (["/api"] : List String).Nodup :=
  ⟨rfl, bfs_never_revisits.1 [diamondFile] 10 "D::c" ["/api"] rfl⟩

/-! ### Unresolvable references fall back to placeholders (claim C10) -/

/-- C10: a schema-builder variable missing from the definition map gives
the generic object schema; a DTO name missing from the DTO map gives the
generic object schema; and a router the traversal recorded no prefix for
(here `U::a`, unreachable from the lone root) still has its routes
emitted, under the single empty prefix. -/
theorem unresolvable_refs_fall_back :
    (∀ (n : Nat) (name : String) (defs : List (String × JsExpr)) (d : Nat),
      ¬ 10 < d → alookup defs name = none →
      resolveZodSchemaF (n + 1) (some (.identL name)) defs d = some objSchema) ∧
    (∀ (n : Nat) (dtoName : String) (dtoMap : List (String × DtoDef)) (d : Nat)
        (memo : List (String × SchemaNode)),
      alookup memo dtoName = none → alookup dtoMap dtoName = none →
      buildSchemaForDtoF (n + 1) dtoName dtoMap d memo = some (objSchema, memo)) ∧
    alookup (honoBfsFinal [unreachedCycleFile] 10).pm "U::a" = none ∧
    extractHonoEndpointsF 10 [unreachedCycleFile] =
      some [{ method := "GET", path := "/ping", description := "GET /ping",
              body := none, query := none, filePath := some "U",
              key := "GET /ping" }] := by
  refine ⟨resolveZod_unknown_ident, buildSchemaForDto_unknown, rfl, rfl⟩

/-- Witness for C10 at concrete unresolvable references. -/
theorem unresolvable_refs_fall_back_witness :
    resolveZodSchemaF 1 (some (.identL "missing")) [] 0 = some objSchema ∧
    buildSchemaForDtoF 1 "Missing" [] 0 [] = some (objSchema, []) :=
  ⟨unresolvable_refs_fall_back.1 0 "missing" [] 0 (by omega) rfl,
   unresolvable_refs_fall_back.2.1 0 "Missing" [] 0 [] rfl rfl⟩

/-! ### Root selection and cyclic graphs (claim C8)

On `selfLoopFile` every node has an incoming edge, so all nodes are
seeded; but each pass around the self-loop joins the literal prefix `/x`
onto the previous prefix, producing the ever-growing strings
`""`, `/x`, `/x/x`, ... — the `(node, prefix)` dedup never fires and the
queue never empties. -/

theorem head?_append_left {α : Type} (l m : List α) (h : l ≠ []) :
    (l ++ m).head? = l.head? := by
  cases l with
  | nil => exact absurd rfl h
  | cons a t => rfl

theorem noSlashRun_append (l m : List Char) (hl : noSlashRun l = true)
    (hm : noSlashRun m = true)
    (hb : ∀ a b, l.getLast? = some a → m.head? = some b → ¬(a = '/' ∧ b = '/')) :
    noSlashRun (l ++ m) = true := by
  induction l with
  | nil => simpa using hm
  | cons c t ih =>
    cases t with
    | nil =>
      apply noSlashRun_cons_of c m hm
      intro x hx
      exact hb c x rfl hx
    | cons d t2 =>
      simp only [noSlashRun, Bool.and_eq_true, Bool.not_eq_true'] at hl
      have hna : ¬ (c = '/' ∧ d = '/') := by
        rintro ⟨h1, h2⟩
        rw [h1, h2] at hl
        simp at hl
      have hb2 : ∀ a b, (d :: t2).getLast? = some a → m.head? = some b →
          ¬(a = '/' ∧ b = '/') := by
        intro a b ha hmb
        exact hb a b (by rw [List.getLast?_cons_cons]; exact ha) hmb
      have ih2 := ih hl.2 hb2
      show noSlashRun (c :: ((d :: t2) ++ m)) = true
      apply noSlashRun_cons_of c _ ih2
      intro x hx
      rw [head?_append_left _ _ (by simp)] at hx
      injection hx with hx
      rw [hx] at hna
      exact hna

theorem collapseL_append (l m : List Char) (hl : noSlashRun l = true)
    (hlast : l.getLast? ≠ some '/') :
    collapseL (l ++ m) = l ++ collapseL m := by
  induction l with
  | nil => rfl
  | cons c t ih =>
    cases t with
    | nil =>
      have hc : ¬ (c = '/') := fun h => hlast (by rw [h]; rfl)
      cases m with
      | nil => rfl
      | cons d m2 =>
        show collapseL (c :: d :: m2) = c :: collapseL (d :: m2)
        rw [collapseL]
        rw [if_neg (fun h => hc h.1)]
    | cons d t2 =>
      simp only [noSlashRun, Bool.and_eq_true, Bool.not_eq_true'] at hl
      have hna : ¬ (c = '/' ∧ d = '/') := by
        rintro ⟨h1, h2⟩
        rw [h1, h2] at hl
        simp at hl
      have hlast2 : (d :: t2).getLast? ≠ some '/' := by
        intro h
        exact hlast (by rw [List.getLast?_cons_cons]; exact h)
      show collapseL (c :: ((d :: t2) ++ m)) = (c :: d :: t2) ++ collapseL m
      rw [show (d :: t2) ++ m = d :: (t2 ++ m) from rfl]
      rw [collapseL, if_neg hna]
      rw [show d :: (t2 ++ m) = (d :: t2) ++ m from rfl]
      rw [ih hl.2 hlast2]
      rfl

/-- Character form of the growing prefixes `""`, `/x`, `/x/x`, ... -/
def pkL : Nat → List Char
  | 0 => []
  | n + 1 => pkL n ++ ['/', 'x']

/-- The prefix reached after `n` passes around the `/x` self-loop. -/
def pk : Nat → String
  | 0 => ""
  | n + 1 => pk n ++ "/x"

theorem pk_data : ∀ n, (pk n).data = pkL n := by
  intro n
  induction n with
  | zero => rfl
  | succ m ih =>
    show (pk m ++ "/x").data = pkL m ++ ['/', 'x']
    rw [data_append, ih]

theorem pkL_length : ∀ n, (pkL n).length = 2 * n := by
  intro n
  induction n with
  | zero => rfl
  | succ m ih =>
    show (pkL m ++ ['/', 'x']).length = 2 * (m + 1)
    rw [List.length_append, ih]
    simp only [List.length_cons, List.length_nil]
    omega

theorem pkL_ne_nil (n : Nat) : pkL (n + 1) ≠ [] := by
  intro h
  have := pkL_length (n + 1)
  rw [h] at this
  simp at this

theorem pkL_head : ∀ n, (pkL (n + 1)).head? = some '/' := by
  intro n
  induction n with
  | zero => rfl
  | succ m ih =>
    show (pkL (m + 1) ++ ['/', 'x']).head? = some '/'
    rw [head?_append_left _ _ (pkL_ne_nil m)]
    exact ih

theorem pkL_last (n : Nat) : (pkL (n + 1)).getLast? = some 'x' := by
  show (pkL n ++ ['/', 'x']).getLast? = some 'x'
  rw [getLast?_append_right _ _ (by simp)]
  rfl

theorem pkL_noRun : ∀ n, noSlashRun (pkL n) = true := by
  intro n
  induction n with
  | zero => rfl
  | succ m ih =>
    show noSlashRun (pkL m ++ ['/', 'x']) = true
    apply noSlashRun_append (pkL m) ['/', 'x'] ih (by decide)
    intro a b ha hb
    cases m with
    | zero => simp [pkL] at ha
    | succ j =>
      rw [pkL_last j] at ha
      injection ha with ha
      injection hb with hb
      rw [← ha, ← hb]
      rintro ⟨h1, _⟩
      exact absurd h1 (by decide)

theorem normalizePathL_pkL (n : Nat) : normalizePathL (pkL (n + 1)) = pkL (n + 1) := by
  unfold normalizePathL
  rw [if_neg (pkL_ne_nil n)]
  rw [trimL_eq_self _ ?h1 ?h2]
  case h1 =>
    intro c hc
    rw [pkL_head n] at hc
    injection hc with hc
    rw [← hc]
    rfl
  case h2 =>
    intro c hc
    rw [pkL_last n] at hc
    injection hc with hc
    rw [← hc]
    rfl
  unfold ensureLead
  rw [if_pos (pkL_head n)]
  rw [collapseL_eq_self _ (pkL_noRun (n + 1))]
  unfold stripTrail
  rw [if_neg ?hs]
  case hs =>
    rintro ⟨_, hsl⟩
    rw [pkL_last n] at hsl
    injection hsl with hsl
    exact absurd hsl (by decide)

theorem normalizePath_pk (n : Nat) : normalizePath (pk (n + 1)) = pk (n + 1) := by
  rw [string_eq_iff_data]
  show normalizePathL (pk (n + 1)).data = (pk (n + 1)).data
  rw [pk_data]
  exact normalizePathL_pkL n

theorem pk_ne_empty (n : Nat) : pk (n + 1) ≠ "" := by
  intro h
  have h2 : (pk (n + 1)).data = [] := by rw [h]
  rw [pk_data] at h2
  exact pkL_ne_nil n h2

theorem pk_ne_slash (n : Nat) : pk (n + 1) ≠ "/" := by
  intro h
  have h2 : (pk (n + 1)).data = ['/'] := by rw [h]
  rw [pk_data] at h2
  have := pkL_length (n + 1)
  rw [h2] at this
  simp at this
  omega

theorem joinPaths_pk_empty (n : Nat) : joinPaths (pk (n + 1)) "" = pk (n + 1) := by
  unfold joinPaths
  rw [if_neg (pk_ne_empty n), if_pos rfl]
  rw [normalizePath_pk n]
  show (if pk (n + 1) = "/" then normalizePath "/"
    else if normalizePath "/" = "/" then pk (n + 1)
    else normalizePath (pk (n + 1) ++ "/" ++ normalizePath "/")) = pk (n + 1)
  rw [if_neg (pk_ne_slash n), if_pos (show normalizePath "/" = "/" from rfl)]

theorem joinPaths_pk_x (n : Nat) : joinPaths (pk (n + 1)) "/x" = pk (n + 2) := by
  unfold joinPaths
  rw [if_neg (pk_ne_empty n), if_neg (show ("/x" : String) ≠ "" by decide)]
  rw [normalizePath_pk n]
  show (if pk (n + 1) = "/" then normalizePath "/x"
    else if normalizePath "/x" = "/" then pk (n + 1)
    else normalizePath (pk (n + 1) ++ "/" ++ normalizePath "/x")) = pk (n + 2)
  rw [if_neg (pk_ne_slash n),
    if_neg (show ¬ (normalizePath "/x" = "/") by decide)]
  rw [show normalizePath "/x" = "/x" from rfl]
  rw [string_eq_iff_data]
  show normalizePathL (pk (n + 1) ++ "/" ++ "/x").data = (pk (n + 2)).data
  rw [show (pk (n + 1) ++ "/" ++ "/x").data = (pk (n + 1)).data ++ ['/'] ++ ['/', 'x'] from by
    rw [data_append, data_append]]
  rw [pk_data, pk_data]
  rw [List.append_assoc]
  show normalizePathL (pkL (n + 1) ++ ['/', '/', 'x']) = pkL (n + 2)
  unfold normalizePathL
  rw [if_neg (by simp [pkL_ne_nil n])]
  rw [trimL_eq_self _ ?th1 ?th2]
  case th1 =>
    intro c hc
    rw [head?_append_left _ _ (pkL_ne_nil n), pkL_head n] at hc
    injection hc with hc
    rw [← hc]
    rfl
  case th2 =>
    intro c hc
    rw [getLast?_append_right _ _ (by simp)] at hc
    have hc2 : 'x' = c := by simpa using hc
    rw [← hc2]
    rfl
  unfold ensureLead
  rw [head?_append_left _ _ (pkL_ne_nil n), if_pos (pkL_head n)]
  rw [collapseL_append _ _ (pkL_noRun (n + 1)) (by rw [pkL_last n]; simp)]
  rw [show collapseL ['/', '/', 'x'] = ['/', 'x'] from rfl]
  unfold stripTrail
  rw [if_neg ?ts]
  case ts =>
    rintro ⟨_, hsl⟩
    rw [getLast?_append_right _ _ (by simp)] at hsl
    simp at hsl
  rfl

theorem pk_fresh (k : Nat) :
    ((List.range (k + 1)).map pk).contains (pk (k + 1)) = false := by
  cases hcon : ((List.range (k + 1)).map pk).contains (pk (k + 1)) with
  | false => rfl
  | true =>
    exfalso
    have hmem := (contains_iff_mem _ _).mp hcon
    rcases List.mem_map.mp hmem with ⟨j, hj, hpk⟩
    have hj2 : j < k + 1 := List.mem_range.mp hj
    have hlen : (pk j).data.length = (pk (k + 1)).data.length := by rw [hpk]
    rw [pk_data, pk_data, pkL_length, pkL_length] at hlen
    omega

/-- The router index the pipeline builds for `selfLoopFile`. -/
def routersS : List (String × RouterInfo) := [("S::s", ⟨"S", "s", ""⟩)]

/-- The resolved mount edges of `selfLoopFile`. -/
def edgesS : List (String × List HEdge) := [("S::s", [⟨"S::s", "/x"⟩])]

/-- The BFS state after `k` iterations on the self-loop. -/
def spmQ (k : Nat) : BfsState :=
  ⟨[("S::s", (List.range (k + 1)).map pk)], [("S::s", pk k)]⟩

theorem bfsStep_selfLoop_shape (L : List String) (p : String) :
    bfsStep routersS edgesS ⟨[("S::s", L)], [("S::s", p)]⟩ =
      (let cp := joinPaths (joinPaths p "") "/x"
       let r := addPfx [("S::s", L)] "S::s" cp
       if r.2 then (⟨r.1, [("S::s", cp)]⟩ : BfsState) else ⟨r.1, []⟩) := rfl

theorem selfLoop_child (k : Nat) :
    joinPaths (joinPaths (pk k) "") "/x" = pk (k + 1) := by
  cases k with
  | zero => decide
  | succ m => rw [joinPaths_pk_empty m, joinPaths_pk_x m]

theorem selfLoop_addPfx (k : Nat) :
    addPfx [("S::s", (List.range (k + 1)).map pk)] "S::s" (pk (k + 1)) =
      ([("S::s", (List.range (k + 2)).map pk)], true) := by
  unfold addPfx
  rw [show alookup [("S::s", (List.range (k + 1)).map pk)] "S::s"
      = some ((List.range (k + 1)).map pk) from by simp [alookup]]
  rw [Option.getD_some]
  simp only [pk_fresh k]
  rw [if_neg (by simp)]
  rw [show aset [("S::s", (List.range (k + 1)).map pk)] "S::s"
        ((List.range (k + 1)).map pk ++ [pk (k + 1)])
      = [("S::s", (List.range (k + 1)).map pk ++ [pk (k + 1)])] from by simp [aset]]
  rw [show (List.range (k + 2)).map pk = (List.range (k + 1)).map pk ++ [pk (k + 1)] from by
    simp [List.range_succ]]

theorem selfLoop_step (k : Nat) :
    bfsStep routersS edgesS (spmQ k) = spmQ (k + 1) := by
  rw [show spmQ k
      = (⟨[("S::s", (List.range (k + 1)).map pk)], [("S::s", pk k)]⟩ : BfsState) from rfl]
  rw [bfsStep_selfLoop_shape]
  simp only [selfLoop_child k, selfLoop_addPfx k]
  rfl

theorem selfLoop_run : ∀ (n k : Nat),
    bfsRun routersS edgesS n (spmQ k) = spmQ (k + n) := by
  intro n
  induction n with
  | zero => intro k; rfl
  | succ n ih =>
    intro k
    unfold bfsRun
    rw [if_neg (show ¬ (spmQ k).queue = [] by simp [spmQ])]
    rw [selfLoop_step k, ih (k + 1)]
    congr 1
    omega

theorem selfLoop_diverges : ¬ honoBfsTerminates [selfLoopFile] := by
  rintro ⟨n, hn⟩
  have hfin : honoBfsFinal [selfLoopFile] n = bfsRun routersS edgesS n (spmQ 0) := rfl
  rw [hfin, selfLoop_run n 0] at hn
  simp [spmQ] at hn

/-- C8 counterexample: on the self-mount cycle the BFS queue never
empties — the resolver does not finish on every cyclic mount graph. -/
theorem hono_bfs_diverges_on_cycle : ¬ honoBfsTerminates [selfLoopFile] :=
  selfLoop_diverges

/-- C8 (amended): the BFS start set is exactly the routers without an
incoming resolved mount edge, and when every router has one (a pure
cycle) every router is seeded; the traversal then starts but need not
terminate on cyclic graphs — on the `/x` self-loop the queue never
empties because every pass produces a fresh, longer prefix string. -/
theorem root_selection :
    (∀ (routerIds chp : List String) (id : String),
      id ∈ startSet routerIds chp ↔
        (id ∈ routerIds ∧ (¬ id ∈ chp ∨ ∀ r ∈ routerIds, r ∈ chp))) ∧
    ¬ honoBfsTerminates [selfLoopFile] := by
  constructor
  · intro routerIds chp id
    unfold startSet
    have hfil : ∀ x, x ∈ routerIds.filter (fun id => ¬ chp.contains id) ↔
        (x ∈ routerIds ∧ ¬ x ∈ chp) := by
      intro x
      rw [List.mem_filter]
      constructor
      · rintro ⟨h1, h2⟩
        refine ⟨h1, fun hmem => ?_⟩
        rw [decide_eq_true_iff] at h2
        exact h2 ((contains_iff_mem _ _).mpr hmem)
      · rintro ⟨h1, h2⟩
        refine ⟨h1, ?_⟩
        rw [decide_eq_true_iff]
        intro hc
        exact h2 ((contains_iff_mem _ _).mp hc)
    by_cases hroots : (routerIds.filter (fun id => ¬ chp.contains id)).length ≠ 0
    · rw [if_pos hroots]
      rw [hfil id]
      have hw : ∃ w, w ∈ routerIds ∧ ¬ w ∈ chp := by
        rcases hne : routerIds.filter (fun id => ¬ chp.contains id) with _ | ⟨w, t⟩
        · rw [hne] at hroots; simp at hroots
        · have : w ∈ routerIds.filter (fun id => ¬ chp.contains id) := by
            rw [hne]; exact List.mem_cons_self _ _
          exact ⟨w, (hfil w).mp this⟩
      constructor
      · rintro ⟨h1, h2⟩
        exact ⟨h1, Or.inl h2⟩
      · rintro ⟨h1, h2 | h2⟩
        · exact ⟨h1, h2⟩
        · rcases hw with ⟨w, hw1, hw2⟩
          exact absurd (h2 w hw1) hw2
    · rw [if_neg hroots]
      have hempty : routerIds.filter (fun id => ¬ chp.contains id) = [] := by
        rcases hne : routerIds.filter (fun id => ¬ chp.contains id) with _ | ⟨w, t⟩
        · rfl
        · rw [hne] at hroots; simp at hroots
      have hall : ∀ r ∈ routerIds, r ∈ chp := by
        intro r hr
        by_contra hnc
        have : r ∈ routerIds.filter (fun id => ¬ chp.contains id) := (hfil r).mpr ⟨hr, hnc⟩
        rw [hempty] at this
        simp at this
      constructor
      · intro h1
        exact ⟨h1, Or.inr hall⟩
      · rintro ⟨h1, _⟩
        exact h1
  · exact selfLoop_diverges

/-- Witness for C8 at a concrete graph. -/
theorem root_selection_witness :
    "S::s" ∈ startSet ["S::s"] ["S::s"] :=
  (root_selection.1 ["S::s"] ["S::s"] "S::s").mpr
    ⟨by simp, Or.inr (by intro r hr; simpa using hr)⟩

end PostApiSync
